import Mathlib

/-!
# Verification of the tohru transactional dotfile engine

A shallow embedding of the tohru store engine (`pkg/store/ops.go`), its
content-addressing subsystem (`pkg/digest`), path utilities
(`pkg/utils/fileutils`) and manifest merging (`pkg/manifest`), together with
theorems settling the frozen specification claims.

Modelling conventions:
* Machine filesystem state is an association list from resolved path
  components to nodes (regular file, symlink, directory).  Filesystem
  mutations are explicit state passing through a state-plus-error monad `M`;
  every mutation also appends an `Event` to a trace, mirroring the call
  sites at which the Go engine materialises or removes objects and persists
  the lock.
* SHA-256 is modelled by the identity on the hashed byte stream: the model
  digest of a file is its content, of a symlink its target, of a directory
  the concatenation of its sorted records.  Equal inputs give equal digests
  (as for the real hash), and distinct inputs give distinct digests (the
  standard collision-freeness assumption).
* The JSON/TOML persistence layer is out of scope per the spec (§6, an
  opaque atomic get/set contract): `SaveLock`/`LoadLock` read and write the
  `lockFile` field of the system state directly.
-/

deriving instance DecidableEq for Except

namespace Tohru

/-! ## String helpers (Go `strings` package operations, over `List Char`) -/

/-- Lexicographic order on character lists.  Go compares strings byte-wise;
on UTF-8 data byte-wise order coincides with code-point order, so this is
the order `<` of Go strings. -/
def lexLt : List Char → List Char → Bool
  | [], [] => false
  | [], _ :: _ => true
  | _ :: _, [] => false
  | a :: as, b :: bs => if a = b then lexLt as bs else decide (a < b)

/-- Go string `<`. -/
def strLt (a b : String) : Bool := lexLt a.data b.data

/-- Go string `<=` (total, as the negation of the reverse strict order). -/
def strLe (a b : String) : Bool := !(strLt b a)

/-- Go `strings.Split(s, sep)` for a single-character separator, on the
underlying character list.  `[]` input yields `[[]]` like Go's `[""]`. -/
def splitOnChar (sep : Char) : List Char → List (List Char)
  | [] => [[]]
  | c :: rest =>
    match splitOnChar sep rest with
    | [] => [[]]
    | s :: ss => if c = sep then [] :: s :: ss else (c :: s) :: ss

/-- Go `strings.Split(s, string(sep))` for a one-character separator. -/
def splitString (sep : Char) (s : String) : List String :=
  (splitOnChar sep s.data).map String.mk

/-- Whitespace per Go `unicode.IsSpace` restricted to ASCII (the only
whitespace that occurs in digests and paths handled by the engine). -/
def goIsSpace (c : Char) : Bool :=
  c = ' ' || c = '\t' || c = '\n' || c = '\x0b' || c = '\x0c' || c = '\r'

/-- Strip leading whitespace. -/
def trimLeft (l : List Char) : List Char := l.dropWhile goIsSpace

/-- Strip leading and trailing whitespace. -/
def trimChars (l : List Char) : List Char :=
  ((trimLeft l).reverse.dropWhile goIsSpace).reverse

/-- Go `strings.TrimSpace`. -/
def trimSpace (s : String) : String := String.mk (trimChars s.data)

/-- Join character-list components with `/` separators. -/
def joinWithSlash : List (List Char) → List Char
  | [] => []
  | [c] => c
  | c :: c' :: rest => c ++ '/' :: joinWithSlash (c' :: rest)

/-- Join string components with `/` separators. -/
def joinComps (comps : List String) : String :=
  String.mk (joinWithSlash (comps.map String.data))

/-! ## Digest (`pkg/digest/digest.go`) -/

/-- `digest.Kind` is a string type in the source. -/
def KindNull : String := "null"

def KindFile : String := "file"

def KindDir : String := "dir"

def KindSymlink : String := "symlink"

def AlgorithmSHA256 : String := "sha256"

/-- `digest.Digest` — a typed digest value, rendered `"kind:algorithm:sum"`. -/
structure Digest where
  kind : String := ""
  algorithm : String := ""
  sum : String := ""
deriving DecidableEq, Repr

/-- `digest.validateKind`. -/
def validateKind (kind : String) : Except String Unit :=
  if kind = KindNull ∨ kind = KindFile ∨ kind = KindDir ∨ kind = KindSymlink then
    Except.ok ()
  else
    Except.error ("unsupported digest kind " ++ kind)

/-- `digest.New`. -/
def Digest.New (kind algorithm sum : String) : Except String Digest := do
  let () ← validateKind kind
  if kind = KindNull then
    if algorithm ≠ "" ∨ sum ≠ "" then
      Except.error "null digest must not include algorithm or sum"
    else
      Except.ok { kind := KindNull }
  else if trimSpace algorithm = "" then
    Except.error "digest algorithm is required"
  else if trimSpace sum = "" then
    Except.error "digest sum is required"
  else
    Except.ok { kind := kind, algorithm := trimSpace algorithm, sum := trimSpace sum }

/-- `Digest.IsZero`. -/
def Digest.IsZero (d : Digest) : Bool :=
  d.kind = "" && d.algorithm = "" && d.sum = ""

/-- `Digest.String()`. -/
def Digest.toString (d : Digest) : String :=
  if d.IsZero then ""
  else if d.kind = KindNull then KindNull
  else d.kind ++ ":" ++ d.algorithm ++ ":" ++ d.sum

/-- `digest.Parse`. -/
def Digest.Parse (raw : String) : Except String Digest :=
  let raw := trimSpace raw
  if raw = "" then Except.ok {}
  else if raw = KindNull then Except.ok { kind := KindNull }
  else
    match splitString ':' raw with
    | [k, a, s] => Digest.New k a s
    | _ => Except.error ("invalid digest " ++ raw ++ " (expected kind:algorithm:sum)")

/-! ## Path utilities (`path/filepath` and `pkg/utils/fileutils`) -/

/-- Stack step of Go `filepath.Clean`: process one already-split path
element against the stack of output elements (stored reversed). -/
def cleanStack (rooted : Bool) : List String → List String → List String
  | stack, [] => stack.reverse
  | stack, c :: rest =>
    if c = "" ∨ c = "." then cleanStack rooted stack rest
    else if c = ".." then
      match stack with
      | [] => cleanStack rooted (if rooted then [] else [".."]) rest
      | top :: below =>
        if top = ".." then cleanStack rooted (".." :: top :: below) rest
        else cleanStack rooted below rest
    else cleanStack rooted (c :: stack) rest

/-- Go `filepath.Clean` for `/`-separated paths. -/
def cleanPath (path : String) : String :=
  if path = "" then "."
  else if path.data.head? = some '/' then
    "/" ++ joinComps (cleanStack true [] (splitString '/' path))
  else if cleanStack false [] (splitString '/' path) = [] then "."
  else joinComps (cleanStack false [] (splitString '/' path))

/-- `fileutils.PathDepth`. -/
def pathDepth (path : String) : Nat :=
  let clean := cleanPath path
  if clean = "." then 0
  else ((splitString '/' clean).filter (· ≠ "")).length

/-- Resolution of an absolute path string to its canonical component list,
as the kernel resolves `.`/`..`/duplicate separators when the engine hands
an absolute path to a filesystem call. -/
def resolveComps (path : String) : List String :=
  cleanStack true [] (splitString '/' path)

/-- Render canonical components as an absolute path string. -/
def compsToAbs (comps : List String) : String :=
  "/" ++ joinComps comps

/-- A normal path component: nonempty, not a dot entry, no separator. -/
def normalComp (c : String) : Prop :=
  c ≠ "" ∧ c ≠ "." ∧ c ≠ ".." ∧ '/' ∉ c.data

instance (c : String) : Decidable (normalComp c) := by
  unfold normalComp; infer_instance

/-! ## Lock state (`pkg/store/lock/lock.go`)

The snapshot's `lock.go` predates `Manifest.Name`, which `switchWithConfig`
and the store tests read and write; the field is included here as the rest
of the source uses it. -/

/-- `lock.Object`. -/
structure Obj where
  path : String
  digest : String
deriving DecidableEq, Repr

/-- `lock.File` — a managed object with its recorded current and previous
states. -/
structure LockFile where
  path : String
  curr : Obj
  prev : Option Obj
deriving DecidableEq, Repr

/-- `lock.Dir` — an auto-created parent directory. -/
structure LockDir where
  path : String
deriving DecidableEq, Repr

/-- `lock.Manifest`. -/
structure LockManifest where
  state : String
  kind : String
  loc : String
  name : String := ""
deriving DecidableEq, Repr

/-- `lock.Lock`. -/
structure Lock where
  manifest : LockManifest
  files : List LockFile
  dirs : List LockDir
deriving DecidableEq, Repr

/-- `store.DefaultLock`. -/
def DefaultLock : Lock :=
  { manifest := { state := "unloaded", kind := "local", loc := "" }
    files := []
    dirs := [] }

/-- `config.Config`, flattened to the two options the engine reads. -/
structure Config where
  backup : Bool := true
  clean : Bool := true
deriving DecidableEq, Repr

/-- `store.manifestOpKind`. -/
inductive OpKind where
  | link
  | file
  | dir
deriving DecidableEq, Repr

def OpKind.render : OpKind → String
  | .link => "link"
  | .file => "file"
  | .dir => "dir"

/-- `store.manifestOp`. -/
structure ManifestOp where
  kind : OpKind
  source : String := ""
  dest : String
  track : Bool
deriving DecidableEq, Repr

/-! ## Filesystem model

An association list from canonical path components to nodes.  Engine paths
are absolute; a filesystem call resolves its path argument with
`resolveComps` before touching the map. -/

inductive Node where
  | file (content : String)
  | symlink (target : String)
  | dir
deriving DecidableEq, Repr

abbrev FsKey := List String

abbrev FS := List (FsKey × Node)

def fsFind (fs : FS) (key : FsKey) : Option Node :=
  match fs with
  | [] => none
  | (k, n) :: rest => if k = key then some n else fsFind rest key

def fsSet (fs : FS) (key : FsKey) (n : Node) : FS :=
  (key, n) :: fs.filter (fun kn => decide (kn.1 ≠ key))

def fsRemoveExact (fs : FS) (key : FsKey) : FS :=
  fs.filter (fun kn => decide (kn.1 ≠ key))

/-- `isKeyPrefix base k` — `k` equals `base` or lies beneath it. -/
def isKeyPrefix : FsKey → FsKey → Bool
  | [], _ => true
  | _ :: _, [] => false
  | a :: as, b :: bs => decide (a = b) && isKeyPrefix as bs

def fsRemoveSubtree (fs : FS) (key : FsKey) : FS :=
  fs.filter (fun kn => !(isKeyPrefix key kn.1))

/-- One record of `hashDir`'s directory walk. -/
structure dirRecord where
  relPath : String
  type : String
  payload : String
deriving DecidableEq, Repr

/-- `digest.hashDir`'s serialization of the collected records: sort by
relative path, then hash the concatenation of the records (sha-256 modelled
by the identity on the hashed stream). -/
def hashDirRecords (records : List dirRecord) : String :=
  let sorted := records.insertionSort (fun a b => strLe a.relPath b.relPath = true)
  sorted.foldl (fun acc r => acc ++ r.relPath ++ "\n" ++ r.type ++ "\n" ++ r.payload ++ "\n") ""

/-- The `(type, payload)` of a walked entry, per `hashDir`'s switch: the
payload of a file is its own hash (modelled by its content). -/
def nodePayload : Node → String × String
  | .file c => ("file", c)
  | .symlink t => ("symlink", t)
  | .dir => ("dir", "")

/-- The records `hashDir`'s walk collects beneath `key`, in the traversal
order the filesystem happens to present. -/
def dirRecordsOf (fs : FS) (key : FsKey) : List dirRecord :=
  fs.filterMap (fun kn =>
    if isKeyPrefix key kn.1 && decide (kn.1 ≠ key) then
      some { relPath := joinComps (kn.1.drop key.length)
             type := (nodePayload kn.2).1
             payload := (nodePayload kn.2).2 }
    else none)

/-- `digest.ForPath` over the model filesystem; `none` models
`os.ErrNotExist` (devices and sockets do not occur in the model). -/
def digestOfPath (fs : FS) (path : String) : Option String :=
  match fsFind fs (resolveComps path) with
  | none => none
  | some (Node.file c) => some ("file:sha256:" ++ c)
  | some (Node.symlink t) => some ("symlink:sha256:" ++ t)
  | some Node.dir =>
    some ("dir:sha256:" ++ hashDirRecords (dirRecordsOf fs (resolveComps path)))

/-! ## Engine state and effects

The trace records the call sites at which the engine mutates the
filesystem (mirroring `recordChange` plus the materialization calls) and
persists the lock. -/

inductive Event where
  | remove (path : String)
  | copyPath (src dest : String)
  | copyFile (src dest : String)
  | symlink (target dest : String)
  | mkdirAll (path : String)
  | mkdir (path : String)
  | writeLock (lck : Lock)
deriving DecidableEq, Repr

structure Sys where
  fs : FS
  lockFile : Lock
  events : List Event
deriving DecidableEq, Repr

/-- State-and-error monad of the engine: Go's explicit `(T, error)` returns
with the filesystem and persisted lock threaded through. -/
def M (α : Type) : Type := Sys → Sys × Except String α

instance : Monad M where
  pure a := fun s => (s, Except.ok a)
  bind x f := fun s =>
    match x s with
    | (s', Except.ok a) => f a s'
    | (s', Except.error e) => (s', Except.error e)

def mThrow {α : Type} (e : String) : M α := fun s => (s, Except.error e)

def getSys : M Sys := fun s => (s, Except.ok s)

def setSys (s' : Sys) : M Unit := fun _ => (s', Except.ok ())

def emit (e : Event) : M Unit :=
  fun s => ({ s with events := s.events ++ [e] }, Except.ok ())

def mOfExcept {α : Type} (x : Except String α) (wrap : String → String) : M α :=
  match x with
  | Except.ok a => pure a
  | Except.error e => mThrow (wrap e)

/-- Go's `fmt.Errorf("...: %w", err)` wrapping of a failing call. -/
def mWrapErr {α : Type} (wrap : String → String) (x : M α) : M α :=
  fun s =>
    match x s with
    | (s', Except.error e) => (s', Except.error (wrap e))
    | r => r

/-- Go's `_ = call` discarding of an error result. -/
def mIgnoreErr {α : Type} (x : M α) : M Unit :=
  fun s => ((x s).1, Except.ok ())

/-! ## Filesystem primitives -/

/-- `snapshotObjectIfExists` (ops.go): a missing path is `(zero, false, nil)`. -/
def snapshotObjectIfExists (path : String) : M (Obj × Bool) := do
  let sys ← getSys
  match digestOfPath sys.fs path with
  | none => pure ({ path := "", digest := "" }, false)
  | some d => pure ({ path := path, digest := d }, true)

/-- `snapshotObject` (ops.go). -/
def snapshotObject (path : String) : M Obj := do
  let (obj, present) ← snapshotObjectIfExists path
  if present then pure obj else mThrow ("path does not exist: " ++ path)

/-- `fileutils.RemovePath`. -/
def removePath (path : String) : M Unit := do
  let clean := cleanPath path
  if clean = "." ∨ clean = "/" then
    mThrow ("refusing to remove unsafe path: " ++ path)
  else do
    let sys ← getSys
    let key := resolveComps clean
    match fsFind sys.fs key with
    | none => pure ()
    | some Node.dir => setSys { sys with fs := fsRemoveSubtree sys.fs key }
    | some _ => setSys { sys with fs := fsRemoveExact sys.fs key }

/-- Inner step of `os.MkdirAll`: create each missing component of the key in
order, failing on a non-directory ancestor. -/
def mkdirAllFrom (fs : FS) (pre : FsKey) : List String → Except String FS
  | [] => Except.ok fs
  | c :: rest =>
    match fsFind fs (pre ++ [c]) with
    | some Node.dir => mkdirAllFrom fs (pre ++ [c]) rest
    | some _ =>
      Except.error ("path exists and is not a directory: " ++ compsToAbs (pre ++ [c]))
    | none => mkdirAllFrom (fsSet fs (pre ++ [c]) Node.dir) (pre ++ [c]) rest

/-- `os.MkdirAll`. -/
def mkdirAllM (path : String) : M Unit := do
  let sys ← getSys
  match mkdirAllFrom sys.fs [] (resolveComps path) with
  | Except.ok fs' => setSys { sys with fs := fs' }
  | Except.error e => mThrow e

/-- `os.Symlink`: fails when the destination exists. -/
def symlinkM (target dest : String) : M Unit := do
  let sys ← getSys
  match fsFind sys.fs (resolveComps dest) with
  | some _ => mThrow ("file exists: " ++ dest)
  | none => setSys { sys with fs := fsSet sys.fs (resolveComps dest) (Node.symlink target) }

/-- `fileutils.CopyFile`: creates the destination's parents, then atomically
replaces the destination with the source's content. -/
def copyFileM (src dest : String) : M Unit := do
  let sys ← getSys
  match fsFind sys.fs (resolveComps src) with
  | none => mThrow ("stat source file " ++ src ++ ": file does not exist")
  | some (Node.file c) => do
    mkdirAllM (compsToAbs (resolveComps dest).dropLast)
    let sys ← getSys
    setSys { sys with fs := fsSet sys.fs (resolveComps dest) (Node.file c) }
  | some _ => mThrow ("source is not a regular file: " ++ src)

/-- `fileutils.copyDir`'s effect on the map: mirror every entry at or below
`srcKey` to the corresponding key below `destKey`. -/
def copySubtree (fs : FS) (srcKey destKey : FsKey) : FS :=
  (fs.filterMap (fun kn =>
      if isKeyPrefix srcKey kn.1 then
        some (destKey ++ kn.1.drop srcKey.length, kn.2)
      else none)).foldl
    (fun acc kn => fsSet acc kn.1 kn.2) fs

/-- `fileutils.CopyPath`: symlink targets are preserved, files copied,
directories mirrored recursively.  The single `copyPath` event stands for
the whole call (its internal `CopyFile`s emit no events of their own). -/
def copyPathM (src dest : String) : M Unit := do
  let sys ← getSys
  match fsFind sys.fs (resolveComps src) with
  | none => mThrow ("stat source path " ++ src ++ ": file does not exist")
  | some (Node.symlink t) => do
    mkdirAllM (compsToAbs (resolveComps dest).dropLast)
    let sys ← getSys
    match fsFind sys.fs (resolveComps dest) with
    | some _ => mThrow ("create symlink " ++ dest ++ " -> " ++ t ++ ": file exists")
    | none => setSys { sys with fs := fsSet sys.fs (resolveComps dest) (Node.symlink t) }
  | some (Node.file c) => do
    mkdirAllM (compsToAbs (resolveComps dest).dropLast)
    let sys ← getSys
    setSys { sys with fs := fsSet sys.fs (resolveComps dest) (Node.file c) }
  | some Node.dir => do
    let sys ← getSys
    match mkdirAllFrom sys.fs [] (resolveComps dest) with
    | Except.error e => mThrow e
    | Except.ok fs' =>
      setSys { sys with fs := copySubtree fs' (resolveComps src) (resolveComps dest) }

/-- `Store.SaveLock` through the opaque atomic persistence contract
(spec §6), with the source's defaulting of empty kind/state. -/
def saveLockM (lck : Lock) : M Unit := do
  let lck := { lck with
    manifest := { lck.manifest with
      kind := if lck.manifest.kind = "" then "local" else lck.manifest.kind
      state := if lck.manifest.state = "" then "unloaded" else lck.manifest.state } }
  let sys ← getSys
  setSys { sys with lockFile := lck, events := sys.events ++ [Event.writeLock lck] }

/-- `Store.LoadLock` through the same contract. -/
def loadLockM : M Lock := do
  let sys ← getSys
  pure sys.lockFile

/-! ## The store engine (`pkg/store/ops.go`) -/

/-- `store.Store` — the store root. -/
structure GoStore where
  root : String
deriving DecidableEq, Repr

/-- `Store.BackupsPath` (`filepath.Join` on canonical absolute inputs is
separator concatenation). -/
def backupsPath (st : GoStore) : String := st.root ++ "/backups"

/-- `store.backupObjectPath`. -/
def backupObjectPath (st : GoStore) (cid : String) : String :=
  backupsPath st ++ "/" ++ cid ++ "/object"

/-- `store.removeManagedObject`. -/
def removeManagedObject (managed : LockFile) (force : Bool) : M Unit := do
  let path := trimSpace managed.path
  if path = "" then pure ()
  else do
    let (current, present) ← snapshotObjectIfExists path
    if present = false then
      if force then pure () else mThrow ("managed path missing: " ++ path)
    else do
      let expected ← mOfExcept (Digest.Parse managed.curr.digest)
        (fun e => "invalid digest for managed path " ++ path ++ ": " ++ e)
      let actual ← mOfExcept (Digest.Parse current.digest)
        (fun e => "invalid current digest for managed path " ++ path ++ ": " ++ e)
      if force = false ∧ expected.IsZero = false ∧ expected.toString ≠ actual.toString then
        mThrow ("managed path was modified: " ++ path)
      else do
        mWrapErr (fun e => "remove managed path " ++ path ++ ": " ++ e) (removePath path)
        emit (Event.remove path)

/-- `store.restoreBackupObject`. -/
def restoreBackupObject (st : GoStore) (prev : Option Obj) (destination : String)
    (force : Bool) : M Unit := do
  match prev with
  | none => pure ()
  | some prevObj => do
    let trimmed := trimSpace prevObj.path
    let backupPath? ← (if trimmed = "" then do
        let d ← mOfExcept (Digest.Parse prevObj.digest)
          (fun e => "parse previous digest for " ++ destination ++ ": " ++ e)
        if d.IsZero then pure none else pure (some (backupObjectPath st d.toString))
      else pure (some trimmed))
    match backupPath? with
    | none => pure ()
    | some backupPath => do
      let (backup, present) ← snapshotObjectIfExists backupPath
      if present = false then
        if force then pure ()
        else mThrow ("missing backup object " ++ backupPath ++ " for " ++ destination)
      else do
        if prevObj.digest ≠ "" ∧ backup.digest ≠ prevObj.digest ∧ force = false then
          mThrow ("backup digest mismatch for " ++ backupPath)
        else do
          let (_, destPresent) ← snapshotObjectIfExists destination
          if destPresent then
            if force = false then mThrow ("restore destination exists for " ++ destination)
            else do
              mWrapErr (fun e => "remove restore destination " ++ destination ++ ": " ++ e)
                (removePath destination)
              emit (Event.remove destination)
          else pure ()
          mWrapErr (fun e => "restore backup " ++ backupPath ++ " to " ++ destination ++ ": " ++ e)
            (copyPathM backupPath destination)
          emit (Event.copyPath backupPath destination)

/-- `store.orderManagedFilesForRemoval`: descending path depth, ties broken
by descending path. -/
def orderManagedFilesForRemoval (files : List LockFile) : List LockFile :=
  files.insertionSort (fun a b =>
    pathDepth a.path > pathDepth b.path ∨
      (pathDepth a.path = pathDepth b.path ∧ strLe b.path a.path = true))

/-- One iteration of `store.unloadManagedPaths`' loop. -/
def unloadStep (st : GoStore) (occupied : List String) (force : Bool)
    (managed : LockFile) : M Unit := do
  removeManagedObject managed force
  match managed.prev with
  | some prevObj =>
    if prevObj.digest ≠ "" then
      if managed.path ∈ occupied then pure ()
      else restoreBackupObject st (some prevObj) managed.path force
    else pure ()
  | none => pure ()

def unloadLoop (st : GoStore) (occupied : List String) (force : Bool) :
    List LockFile → M Unit
  | [] => pure ()
  | managed :: rest => do
    unloadStep st occupied force managed
    unloadLoop st occupied force rest

/-- `store.unloadManagedPaths`. -/
def unloadManagedPaths (st : GoStore) (files : List LockFile) (occupied : List String)
    (force : Bool) : M Unit :=
  unloadLoop st occupied force (orderManagedFilesForRemoval files)

/-- The deepest-first ordering `store.cleanupTrackedAutoDirs` applies. -/
def orderDirsForRemoval (dirs : List LockDir) : List LockDir :=
  dirs.insertionSort (fun a b =>
    pathDepth a.path > pathDepth b.path ∨
      (pathDepth a.path = pathDepth b.path ∧ strLe b.path a.path = true))

/-- One iteration of `store.cleanupTrackedAutoDirs`' loop (`os.Remove` on a
non-empty directory fails `ENOTEMPTY` and is skipped). -/
def cleanupStep (d : LockDir) : M Unit := do
  let path := trimSpace d.path
  if path = "" then pure ()
  else
    let clean := cleanPath path
    if clean = "." ∨ clean = "/" then pure ()
    else do
      let sys ← getSys
      let key := resolveComps clean
      match fsFind sys.fs key with
      | none => pure ()
      | some (Node.file _) => pure ()
      | some (Node.symlink _) => pure ()
      | some Node.dir =>
        if (sys.fs.filter (fun kn => isKeyPrefix key kn.1 && decide (kn.1 ≠ key))).isEmpty then do
          setSys { sys with fs := fsRemoveExact sys.fs key }
          emit (Event.remove clean)
        else pure ()

def cleanupLoop : List LockDir → M Unit
  | [] => pure ()
  | d :: rest => do
    cleanupStep d
    cleanupLoop rest

/-- `store.cleanupTrackedAutoDirs`. -/
def cleanupTrackedAutoDirs (dirs : List LockDir) : M Unit :=
  cleanupLoop (orderDirsForRemoval dirs)

/-- The `referenced` set `store.cleanBackupStore` builds from the tracked
entries' `prev` digests. -/
def referencedDigests : List LockFile → Except String (List String)
  | [] => Except.ok []
  | f :: rest => do
    let here ← (match f.prev with
      | none => Except.ok []
      | some p =>
        if p.digest = "" then Except.ok []
        else do
          let d ← (Digest.Parse p.digest).mapError
            (fun e => "parse previous digest for " ++ f.path ++ ": " ++ e)
          if d.IsZero then Except.ok [] else Except.ok [d.toString])
    let rest' ← referencedDigests rest
    Except.ok (here ++ rest')

/-- `os.ReadDir`'s name list: distinct immediate children, sorted. -/
def childNames (fs : FS) (key : FsKey) : List String :=
  ((fs.filterMap (fun kn =>
      if isKeyPrefix key kn.1 then
        match kn.1.drop key.length with
        | [] => none
        | c :: _ => some c
      else none)).dedup).insertionSort (fun a b => strLe a b = true)

def cleanLoopBackups (st : GoStore) (referenced : List String) :
    List String → Nat → M Nat
  | [], removed => pure removed
  | cid :: rest, removed =>
    if cid ∈ referenced then cleanLoopBackups st referenced rest removed
    else do
      mWrapErr
        (fun e => "remove unreferenced backup " ++ (backupsPath st ++ "/" ++ cid) ++ ": " ++ e)
        (removePath (backupsPath st ++ "/" ++ cid))
      emit (Event.remove (backupsPath st ++ "/" ++ cid))
      cleanLoopBackups st referenced rest (removed + 1)

/-- `store.cleanBackupStore`. -/
def cleanBackupStore (st : GoStore) (tracked : List LockFile) : M Nat := do
  let referenced ← mOfExcept (referencedDigests tracked) id
  let sys ← getSys
  match fsFind sys.fs (resolveComps (backupsPath st)) with
  | none => pure 0
  | some Node.dir =>
    cleanLoopBackups st referenced (childNames sys.fs (resolveComps (backupsPath st))) 0
  | some _ => mThrow ("read backups directory " ++ backupsPath st ++ ": not a directory")

/-- `store.TidyResult`, reduced to the count the claims concern. -/
structure TidyResult where
  removedCount : Nat
deriving DecidableEq, Repr

/-- `Store.Tidy` (the installed-store precondition and the changed-paths
recorder are out of claim scope). -/
def Tidy (st : GoStore) : M TidyResult := do
  let lck ← loadLockM
  let removed ← cleanBackupStore st lck.files
  pure { removedCount := removed }

/-- `store.persistBackupObject`. -/
def persistBackupObject (st : GoStore) (object : Obj) : M Obj := do
  let d ← mOfExcept (Digest.Parse object.digest)
    (fun e => "parse backup digest for " ++ object.path ++ ": " ++ e)
  if d.IsZero then mThrow ("cannot backup object " ++ object.path ++ " with empty digest")
  else do
    let cid := d.toString
    let objectPath := backupObjectPath st cid
    let (existingBackup, present) ← snapshotObjectIfExists objectPath
    if present then
      if existingBackup.digest ≠ d.toString then
        mThrow ("backup collision for CID " ++ cid ++ " at " ++ objectPath)
      else pure { path := objectPath, digest := d.toString }
    else do
      mkdirAllM (compsToAbs (resolveComps objectPath).dropLast)
      mWrapErr (fun e => "backup " ++ object.path ++ " into " ++ objectPath ++ ": " ++ e)
        (copyPathM object.path objectPath)
      emit (Event.copyPath object.path objectPath)
      let written ← mWrapErr (fun e => "snapshot backup object " ++ objectPath ++ ": " ++ e)
        (snapshotObject objectPath)
      if written.digest ≠ d.toString then do
        mIgnoreErr (removePath objectPath)
        mThrow ("backup digest mismatch for " ++ objectPath)
      else pure { path := objectPath, digest := d.toString }

/-- `store.prepareDestinationForApply`. -/
def prepareDestinationForApply (st : GoStore) (cfg : Config) (op : ManifestOp)
    (prev : Option Obj) (force : Bool) : M (Option Obj) := do
  let (current, present) ← snapshotObjectIfExists op.dest
  if present = false then pure prev
  else if op.track = false then
    if force = false then mThrow "destination exists (would clobber), use --force to overwrite"
    else do
      removePath op.dest
      emit (Event.remove op.dest)
      pure prev
  else if prev = none ∧ cfg.backup then do
    let storedPrev ← persistBackupObject st current
    removePath op.dest
    emit (Event.remove op.dest)
    pure (some storedPrev)
  else if force = false then
    if prev = none ∧ cfg.backup = false then
      mThrow "destination exists and options.backup=false, refusing to clobber without --force"
    else mThrow "destination exists (would clobber), use --force to overwrite"
  else do
    removePath op.dest
    emit (Event.remove op.dest)
    pure prev

/-- `store.ensureParentDirs`' upward stat walk over the reversed key
(`(c :: rest).reverse` is the current ancestor, `rest.reverse` its parent,
i.e. the key's `dropLast`): collect the missing ancestors, deepest first,
failing on a non-directory ancestor. -/
def collectMissingRev (fs : FS) : List String → Except String (List FsKey)
  | [] => Except.ok []
  | c :: rest =>
    match fsFind fs (c :: rest).reverse with
    | some Node.dir => Except.ok []
    | some _ =>
      Except.error ("path exists and is not a directory: " ++ compsToAbs (c :: rest).reverse)
    | none => do
      let r ← collectMissingRev fs rest
      Except.ok ((c :: rest).reverse :: r)

def collectMissingParents (fs : FS) (k : FsKey) : Except String (List FsKey) :=
  collectMissingRev fs k.reverse

/-- `store.ensureParentDirs`. -/
def ensureParentDirs (path : String) : M (List String) := do
  let parentKey := (resolveComps path).dropLast
  if parentKey = [] then pure []
  else do
    let sys ← getSys
    let missing ← mOfExcept (collectMissingParents sys.fs parentKey) id
    let created := missing.reverse
    let fs' := created.foldl (fun acc key => fsSet acc key Node.dir) sys.fs
    setSys { sys with fs := fs' }
    created.forM (fun key => emit (Event.mkdir (compsToAbs key)))
    pure (created.map compsToAbs)

def assocFindFile (m : List (String × LockFile)) (k : String) : Option LockFile :=
  match m with
  | [] => none
  | (k', f) :: rest => if k' = k then some f else assocFindFile rest k

/-- The loop of `store.applyManifestOps`, accumulating tracked entries and
the auto-created-directory set in order. -/
def applyLoop (st : GoStore) (cfg : Config) (oldByPath : List (String × LockFile))
    (force : Bool) :
    List ManifestOp → List LockFile → List String → M (List LockFile × List String)
  | [], tracked, autoDirs => pure (tracked, autoDirs)
  | op :: rest, tracked, autoDirs => do
    let prev := match assocFindFile oldByPath op.dest with
      | some old => old.prev
      | none => none
    let prevAfterPrepare ← mWrapErr (fun e => op.kind.render ++ " " ++ op.dest ++ ": " ++ e)
      (prepareDestinationForApply st cfg op prev force)
    let createdParents ← ensureParentDirs op.dest
    let autoDirs := createdParents.foldl
      (fun acc dir => if dir ∈ acc then acc else acc ++ [dir]) autoDirs
    (match op.kind with
      | OpKind.link => do
        mWrapErr (fun e => "create symlink " ++ op.dest ++ " -> " ++ op.source ++ ": " ++ e)
          (symlinkM op.source op.dest)
        emit (Event.symlink op.source op.dest)
      | OpKind.file => do
        copyFileM op.source op.dest
        emit (Event.copyFile op.source op.dest)
      | OpKind.dir => do
        mWrapErr (fun e => "create directory " ++ op.dest ++ ": " ++ e) (mkdirAllM op.dest)
        emit (Event.mkdirAll op.dest))
    if op.track = false then applyLoop st cfg oldByPath force rest tracked autoDirs
    else do
      let curr ← mWrapErr (fun e => "snapshot tracked path " ++ op.dest ++ ": " ++ e)
        (snapshotObject op.dest)
      applyLoop st cfg oldByPath force rest
        (tracked ++ [{ path := op.dest, curr := curr, prev := prevAfterPrepare }]) autoDirs

/-- `store.applyManifestOps`. -/
def applyManifestOps (st : GoStore) (cfg : Config) (ops : List ManifestOp)
    (oldByPath : List (String × LockFile)) (force : Bool) :
    M (List LockFile × List LockDir) := do
  let (tracked, autoDirSet) ← applyLoop st cfg oldByPath force ops [] []
  let autoDirs := (autoDirSet.insertionSort (fun a b => strLe a b = true)).map
    (fun p => ({ path := p } : LockDir))
  pure (tracked, autoDirs)

/-- `store.LoadResult`, reduced to the fields the claims concern. -/
structure LoadResult where
  sourceDir : String
  sourceName : String
  trackedCount : Nat
  unloadedSourceName : String
  unloadedTrackedCount : Nat
  removedBackupCount : Nat
deriving DecidableEq, Repr

/-- `store.sourceDisplayName` (`filepath.Base ∘ filepath.Clean` rendered for
the absolute locations the engine stores). -/
def sourceDisplayName (nm loc : String) : String :=
  if trimSpace nm ≠ "" then trimSpace nm
  else
    let l := trimSpace loc
    if l = "" then ""
    else
      match (resolveComps l).getLast? with
      | some b => b
      | none => "/"

/-- `store.switchWithConfig`, from the point where mutation begins
(ops.go:200).  The pre-mutation steps — `manifest.Load`, the version
compatibility check and `buildManifestOps` — run before any filesystem
access and are passed in as the already-built inputs `mName`, `sourceDir`
and `ops`. -/
def switchWithConfig (st : GoStore) (cfg : Config) (mName sourceDir : String)
    (ops : List ManifestOp) (force : Bool) : M LoadResult := do
  let oldLock ← loadLockM
  let oldByPath := oldLock.files.map (fun f => (f.path, f))
  let occupiedByNew := ops.map (fun op => op.dest)
  unloadManagedPaths st oldLock.files occupiedByNew force
  cleanupTrackedAutoDirs oldLock.dirs
  saveLockM DefaultLock
  let (tracked, autoDirs) ← applyManifestOps st cfg ops oldByPath force
  let newLock : Lock :=
    { manifest := { state := "loaded", kind := "local", loc := sourceDir, name := trimSpace mName }
      files := tracked
      dirs := autoDirs }
  saveLockM newLock
  let removedBackups ← (if cfg.clean then cleanBackupStore st newLock.files else pure 0)
  pure { sourceDir := sourceDir
         sourceName := sourceDisplayName mName sourceDir
         trackedCount := tracked.length
         unloadedSourceName := sourceDisplayName oldLock.manifest.name oldLock.manifest.loc
         unloadedTrackedCount := oldLock.files.length
         removedBackupCount := removedBackups }

/-- `store.UnloadResult`, reduced to the fields the claims concern. -/
structure UnloadResult where
  sourceName : String
  removedCount : Nat
  removedBackupCount : Nat
deriving DecidableEq, Repr

/-- `Store.Unload` as in the source snapshot (`force` only). -/
def Unload (st : GoStore) (cfg : Config) (force : Bool) : M UnloadResult := do
  let lck ← loadLockM
  (if lck.files.length > 0 then unloadManagedPaths st lck.files [] force else pure ())
  cleanupTrackedAutoDirs lck.dirs
  saveLockM DefaultLock
  let removedBackups ← (if cfg.clean then cleanBackupStore st DefaultLock.files else pure 0)
  pure { sourceName := sourceDisplayName lck.manifest.name lck.manifest.loc
         removedCount := lck.files.length
         removedBackupCount := removedBackups }

/-- The CLI options record of the current engine. -/
structure Options where
  force : Bool := false
  discardChanges : Bool := false
deriving DecidableEq, Repr

/-- Modelled from the spec: the `discardChanges`-aware managed-object
removal.  The Options-based engine (`store.Options`, `Unload(Options)`) is
exercised by the repository's tests and CLI flags but its implementation is
missing from the source snapshot.  Spec §4.5: "verify current digest matches
`entry.curr` (fail \x22managed path was modified\x22 unless discard/force)";
§6: `discardChanges` is a narrower permission to replace/remove modified
managed files without covering missing-object or backup-digest-mismatch
cases — so the missing-path check still requires full `force`. -/
def removeManagedObjectOpts (managed : LockFile) (opts : Options) : M Unit := do
  let path := trimSpace managed.path
  if path = "" then pure ()
  else do
    let (current, present) ← snapshotObjectIfExists path
    if present = false then
      if opts.force then pure () else mThrow ("managed path missing: " ++ path)
    else do
      let expected ← mOfExcept (Digest.Parse managed.curr.digest)
        (fun e => "invalid digest for managed path " ++ path ++ ": " ++ e)
      let actual ← mOfExcept (Digest.Parse current.digest)
        (fun e => "invalid current digest for managed path " ++ path ++ ": " ++ e)
      if opts.force = false ∧ opts.discardChanges = false ∧ expected.IsZero = false ∧
          expected.toString ≠ actual.toString then
        mThrow ("managed path was modified: " ++ path)
      else do
        mWrapErr (fun e => "remove managed path " ++ path ++ ": " ++ e) (removePath path)
        emit (Event.remove path)

/-- Events by which `applyManifestOps` materialises the new source:
operation materialisation (symlink / file copy / directory creation) and
parent-directory creation.  The unload phase never emits these kinds. -/
def Event.isApplyKind : Event → Bool
  | .symlink _ _ => true
  | .copyFile _ _ => true
  | .mkdirAll _ => true
  | .mkdir _ => true
  | _ => false

/-! ## Manifest merging (`pkg/manifest/manifest.go`) -/

/-- `manifest.Link` (`To`/`From` are Lean keywords, rendered with a `Path`
suffix). -/
structure MLink where
  toPath : String
  fromPath : String
deriving DecidableEq, Repr

/-- `manifest.File`. -/
structure MFile where
  source : String
  dest : String
  tracked : Option Bool := none
deriving DecidableEq, Repr

/-- `manifest.Dir`. -/
structure MDir where
  path : String
  tracked : Option Bool := none
deriving DecidableEq, Repr

/-- `manifest.Manifest` with the nested `Tohru.Version` and
`Source.Name`/`Source.Description` scalars flattened.  The `Imports` list is
consumed by the loader before merging (`current.Imports = nil`) and carries
no merged data. -/
structure Manifest where
  version : String := ""
  name : String := ""
  description : String := ""
  links : List MLink := []
  files : List MFile := []
  dirs : List MDir := []
deriving DecidableEq, Repr

/-- `Manifest.Merge`: append entry lists, overwrite scalars only with a
non-empty (trimmed) value of `other`. -/
def Manifest.Merge (m other : Manifest) : Manifest :=
  { version := if trimSpace other.version ≠ "" then trimSpace other.version else m.version
    name := if trimSpace other.name ≠ "" then trimSpace other.name else m.name
    description :=
      if trimSpace other.description ≠ "" then trimSpace other.description else m.description
    links := m.links ++ other.links
    files := m.files ++ other.files
    dirs := m.dirs ++ other.dirs }

/-- `loadContext.load`'s merge sequence: fold the (platform-filtered,
successfully loaded) imported manifests in declaration order into an empty
accumulator, then merge the importing manifest itself on top. -/
def mergeImports (imported : List Manifest) (current : Manifest) : Manifest :=
  Manifest.Merge (imported.foldl Manifest.Merge {}) current

/-- The scalar-merge characterization: the last non-empty trimmed value
wins, starting from the empty accumulator. -/
def lastNonEmptyScalar (vals : List String) : String :=
  vals.foldl (fun acc v => if trimSpace v ≠ "" then trimSpace v else acc) ""

/-- The condition under which `unloadManagedPaths` attempts a backup
restore for an entry: a recorded `prev` with a non-empty digest, and a
destination not about to be reoccupied by the incoming operation set. -/
def restoreCond (f : LockFile) (occupied : List String) : Prop :=
  (∃ o, f.prev = some o ∧ o.digest ≠ "") ∧ f.path ∉ occupied

instance (f : LockFile) (occupied : List String) : Decidable (restoreCond f occupied) := by
  unfold restoreCond
  cases f.prev <;> simp <;> infer_instance

/-- `sys'` extends `sys` by appending events. -/
def EventsExtend (sys sys' : Sys) : Prop :=
  ∃ Δ, sys'.events = sys.events ++ Δ

/-- `sys'` extends `sys` by appending only non-apply-phase events. -/
def ExtendsNonApply (sys sys' : Sys) : Prop :=
  ∃ Δ, sys'.events = sys.events ++ Δ ∧ ∀ e ∈ Δ, e.isApplyKind = false

/-- Concrete pre-`Load` state for the failed-apply scenario: an old source
is loaded with one managed file, and the new source is missing one of its
referenced source files. -/
def demoPreC1 : Sys :=
  { fs := [(["s"], Node.dir), (["s", "new.txt"], Node.file "new"),
           (["t"], Node.dir), (["t", "managed"], Node.file "old")]
    lockFile :=
      { manifest := { state := "loaded", kind := "local", loc := "/old", name := "old-source" }
        files := [{ path := "/t/managed"
                    curr := { path := "/t/managed", digest := "file:sha256:old" }
                    prev := none }]
        dirs := [] }
    events := [] }

/-- The new source's operation set for the failed-apply scenario: the first
file exists, the second references a missing source file. -/
def demoOpsC1 : List ManifestOp :=
  [{ kind := OpKind.file, source := "/s/new.txt", dest := "/t/managed", track := true },
   { kind := OpKind.file, source := "/s/missing.txt", dest := "/t/second", track := true }]

/-- Every run of `x` (successful or failed) only appends to the event
trace. -/
def ExtendsOp {α : Type} (x : M α) : Prop :=
  ∀ s : Sys, ∃ Δ, ((x s).1).events = s.events ++ Δ

/-- Every run of `x` appends only non-apply-phase events. -/
def NonApplyOp {α : Type} (x : M α) : Prop :=
  ∀ s : Sys, ∃ Δ, ((x s).1).events = s.events ++ Δ ∧ ∀ e ∈ Δ, e.isApplyKind = false

/-- Every run of `x` appends a trace in which any apply-phase event is
strictly preceded by the unloaded-checkpoint lock write. -/
def CkptOp {α : Type} (x : M α) : Prop :=
  ∀ s : Sys, ∃ Δ, ((x s).1).events = s.events ++ Δ ∧
    ((∀ e ∈ Δ, e.isApplyKind = false) ∨
     ∃ Δ₁ Δ₂, Δ = Δ₁ ++ Event.writeLock DefaultLock :: Δ₂ ∧ ∀ e ∈ Δ₁, e.isApplyKind = false)

/-! ## Monad unfolding lemmas -/

@[simp]
theorem mBind_eq {α β : Type} (x : M α) (f : α → M β) (s : Sys) :
    (x >>= f) s =
      match x s with
      | (s', Except.ok a) => f a s'
      | (s', Except.error e) => (s', Except.error e) := rfl

@[simp]
theorem mPure_eq {α : Type} (a : α) (s : Sys) : (pure a : M α) s = (s, Except.ok a) := rfl

@[simp]
theorem mThrow_eq {α : Type} (e : String) (s : Sys) :
    (mThrow e : M α) s = (s, Except.error e) := rfl

@[simp]
theorem getSys_eq (s : Sys) : getSys s = (s, Except.ok s) := rfl

@[simp]
theorem setSys_eq (s' s : Sys) : setSys s' s = (s', Except.ok ()) := rfl

@[simp]
theorem emit_eq (e : Event) (s : Sys) :
    emit e s = ({ s with events := s.events ++ [e] }, Except.ok ()) := rfl

@[simp]
theorem mWrapErr_eq {α : Type} (wrap : String → String) (x : M α) (s : Sys) :
    mWrapErr wrap x s =
      match x s with
      | (s', Except.error e) => (s', Except.error (wrap e))
      | r => r := rfl

@[simp]
theorem mOfExcept_ok {α : Type} (a : α) (wrap : String → String) :
    mOfExcept (Except.ok a) wrap = pure a := rfl

@[simp]
theorem mOfExcept_error {α : Type} (e : String) (wrap : String → String) :
    (mOfExcept (Except.error e) wrap : M α) = mThrow (wrap e) := rfl

/-! ## C9 — manifest import merging -/

theorem foldl_merge_links (l : List Manifest) (acc : Manifest) :
    (l.foldl Manifest.Merge acc).links = acc.links ++ (l.map Manifest.links).flatten := by
  induction l generalizing acc with
  | nil => simp
  | cons m rest ih =>
    simp only [List.foldl_cons, List.map_cons, List.flatten, ih, Manifest.Merge]
    simp [List.append_assoc]

theorem foldl_merge_files (l : List Manifest) (acc : Manifest) :
    (l.foldl Manifest.Merge acc).files = acc.files ++ (l.map Manifest.files).flatten := by
  induction l generalizing acc with
  | nil => simp
  | cons m rest ih =>
    simp only [List.foldl_cons, List.map_cons, List.flatten, ih, Manifest.Merge]
    simp [List.append_assoc]

theorem foldl_merge_dirs (l : List Manifest) (acc : Manifest) :
    (l.foldl Manifest.Merge acc).dirs = acc.dirs ++ (l.map Manifest.dirs).flatten := by
  induction l generalizing acc with
  | nil => simp
  | cons m rest ih =>
    simp only [List.foldl_cons, List.map_cons, List.flatten, ih, Manifest.Merge]
    simp [List.append_assoc]

theorem foldl_merge_version (l : List Manifest) (acc : Manifest) :
    (l.foldl Manifest.Merge acc).version =
      (l.map Manifest.version).foldl
        (fun a v => if trimSpace v ≠ "" then trimSpace v else a) acc.version := by
  induction l generalizing acc with
  | nil => simp
  | cons m rest ih => simp only [List.foldl_cons, List.map_cons, ih, Manifest.Merge]

theorem foldl_merge_name (l : List Manifest) (acc : Manifest) :
    (l.foldl Manifest.Merge acc).name =
      (l.map Manifest.name).foldl
        (fun a v => if trimSpace v ≠ "" then trimSpace v else a) acc.name := by
  induction l generalizing acc with
  | nil => simp
  | cons m rest ih => simp only [List.foldl_cons, List.map_cons, ih, Manifest.Merge]

theorem foldl_merge_description (l : List Manifest) (acc : Manifest) :
    (l.foldl Manifest.Merge acc).description =
      (l.map Manifest.description).foldl
        (fun a v => if trimSpace v ≠ "" then trimSpace v else a) acc.description := by
  induction l generalizing acc with
  | nil => simp
  | cons m rest ih => simp only [List.foldl_cons, List.map_cons, ih, Manifest.Merge]

/-- C9: import merging appends the imported manifests' links/files/dirs in
declaration order, appends the importer's own entries after all imports, and
overwrites each scalar (version, name, description) only with a non-empty
value, the importer's value winning over imports and later imports over
earlier ones. -/
theorem mergeImports_order_and_scalars (imported : List Manifest) (current : Manifest) :
    (mergeImports imported current).links =
        (imported.map Manifest.links).flatten ++ current.links ∧
    (mergeImports imported current).files =
        (imported.map Manifest.files).flatten ++ current.files ∧
    (mergeImports imported current).dirs =
        (imported.map Manifest.dirs).flatten ++ current.dirs ∧
    (mergeImports imported current).version =
        lastNonEmptyScalar (imported.map Manifest.version ++ [current.version]) ∧
    (mergeImports imported current).name =
        lastNonEmptyScalar (imported.map Manifest.name ++ [current.name]) ∧
    (mergeImports imported current).description =
        lastNonEmptyScalar (imported.map Manifest.description ++ [current.description]) := by
  refine ⟨?_, ?_, ?_, ?_, ?_, ?_⟩
  · show (Manifest.Merge _ current).links = _
    simp [Manifest.Merge, foldl_merge_links]
  · show (Manifest.Merge _ current).files = _
    simp [Manifest.Merge, foldl_merge_files]
  · show (Manifest.Merge _ current).dirs = _
    simp [Manifest.Merge, foldl_merge_dirs]
  · show (Manifest.Merge _ current).version = _
    simp only [lastNonEmptyScalar, List.foldl_append, List.foldl_cons, List.foldl_nil,
      Manifest.Merge, foldl_merge_version]
  · show (Manifest.Merge _ current).name = _
    simp only [lastNonEmptyScalar, List.foldl_append, List.foldl_cons, List.foldl_nil,
      Manifest.Merge, foldl_merge_name]
  · show (Manifest.Merge _ current).description = _
    simp only [lastNonEmptyScalar, List.foldl_append, List.foldl_cons, List.foldl_nil,
      Manifest.Merge, foldl_merge_description]

/-! ## C10 — RemovePath safety -/

/-- C10: `RemovePath` refuses to remove a path whose cleaned form is `.` or
the root separator, returning an error without mutating the filesystem, and
removing a path that does not exist succeeds as a no-op. -/
theorem removePath_safety (p : String) (sys : Sys) :
    ((cleanPath p = "." ∨ cleanPath p = "/") →
      removePath p sys = (sys, Except.error ("refusing to remove unsafe path: " ++ p))) ∧
    (cleanPath p ≠ "." → cleanPath p ≠ "/" →
      fsFind sys.fs (resolveComps (cleanPath p)) = none →
      removePath p sys = (sys, Except.ok ())) := by
  constructor
  · intro h
    unfold removePath
    rw [if_pos h]
    rfl
  · intro h1 h2 hmiss
    unfold removePath
    rw [if_neg (by simp [h1, h2])]
    simp [hmiss]

/-! ## C8 — digest Parse/String round trip -/

theorem dropWhile_idem {α : Type} (p : α → Bool) (l : List α) :
    (l.dropWhile p).dropWhile p = l.dropWhile p := by
  induction l with
  | nil => rfl
  | cons c rest ih =>
    by_cases h : p c
    · simp [List.dropWhile_cons, h, ih]
    · simp [List.dropWhile_cons, h]

theorem head?_dropWhile {α : Type} (p : α → Bool) (l : List α) (c : α)
    (h : (l.dropWhile p).head? = some c) : p c = false := by
  induction l with
  | nil => simp at h
  | cons x rest ih =>
    by_cases hx : p x
    · exact ih (by simpa [List.dropWhile_cons, hx] using h)
    · simp [List.dropWhile_cons, hx] at h
      subst h
      simpa using hx

theorem dropWhile_eq_self_of_head {α : Type} (p : α → Bool) (l : List α)
    (h : ∀ c, l.head? = some c → p c = false) : l.dropWhile p = l := by
  cases l with
  | nil => rfl
  | cons x rest => simp [List.dropWhile_cons, h x rfl]

theorem getLast?_dropWhile {α : Type} (p : α → Bool) (l : List α)
    (h : l.dropWhile p ≠ []) : (l.dropWhile p).getLast? = l.getLast? := by
  induction l with
  | nil => simp at h
  | cons x rest ih =>
    by_cases hx : p x
    · have hne : rest.dropWhile p ≠ [] := by
        simpa [List.dropWhile_cons, hx] using h
      have hrest : rest ≠ [] := by
        intro habs
        subst habs
        simp at hne
      rw [List.dropWhile_cons, if_pos hx, ih hne]
      cases rest with
      | nil => exact absurd rfl hrest
      | cons r rs => rw [List.getLast?_cons_cons]
    · simp [List.dropWhile_cons, hx]

theorem trimChars_head {l : List Char} {c : Char}
    (h : (trimChars l).head? = some c) : goIsSpace c = false := by
  unfold trimChars trimLeft at h
  rw [List.head?_reverse] at h
  by_cases hnil : (l.dropWhile goIsSpace).reverse.dropWhile goIsSpace = []
  · simp [hnil] at h
  · rw [getLast?_dropWhile _ _ hnil, List.getLast?_reverse] at h
    exact head?_dropWhile goIsSpace l c h

theorem trimChars_getLast {l : List Char} {c : Char}
    (h : (trimChars l).getLast? = some c) : goIsSpace c = false := by
  unfold trimChars trimLeft at h
  rw [List.getLast?_reverse] at h
  exact head?_dropWhile goIsSpace _ c h

theorem trimChars_eq_self {l : List Char}
    (hh : ∀ c, l.head? = some c → goIsSpace c = false)
    (hl : ∀ c, l.getLast? = some c → goIsSpace c = false) : trimChars l = l := by
  unfold trimChars trimLeft
  rw [dropWhile_eq_self_of_head goIsSpace l hh]
  rw [dropWhile_eq_self_of_head goIsSpace l.reverse
    (fun c hc => hl c (by rwa [List.head?_reverse] at hc))]
  exact List.reverse_reverse l

theorem trimChars_idem (l : List Char) : trimChars (trimChars l) = trimChars l :=
  trimChars_eq_self (fun _ h => trimChars_head h) (fun _ h => trimChars_getLast h)

theorem strMk_data (s : String) : String.mk s.data = s := by cases s; rfl

theorem trimSpace_idem (s : String) : trimSpace (trimSpace s) = trimSpace s := by
  unfold trimSpace
  rw [show (String.mk (trimChars s.data)).data = trimChars s.data from rfl, trimChars_idem]

theorem splitOnChar_cons (sep c : Char) (rest : List Char) :
    splitOnChar sep (c :: rest) =
      match splitOnChar sep rest with
      | [] => [[]]
      | s :: ss => if c = sep then [] :: s :: ss else (c :: s) :: ss := rfl

theorem splitOnChar_ne_nil (sep : Char) (l : List Char) : splitOnChar sep l ≠ [] := by
  cases l with
  | nil => simp [splitOnChar]
  | cons c rest =>
    unfold splitOnChar
    match h : splitOnChar sep rest with
    | [] => simp
    | s :: ss =>
      by_cases hc : c = sep <;> simp [hc]

theorem splitOnChar_nosep (sep : Char) (l : List Char) (h : sep ∉ l) :
    splitOnChar sep l = [l] := by
  induction l with
  | nil => rfl
  | cons c rest ih =>
    have hc : c ≠ sep := fun habs => h (habs ▸ List.mem_cons_self c rest)
    have hrest : sep ∉ rest := fun habs => h (List.mem_cons_of_mem c habs)
    unfold splitOnChar
    rw [ih hrest]
    simp [hc]

theorem splitOnChar_append (sep : Char) (a b : List Char) (ha : sep ∉ a) :
    splitOnChar sep (a ++ sep :: b) = a :: splitOnChar sep b := by
  induction a with
  | nil =>
    show splitOnChar sep (sep :: b) = [] :: splitOnChar sep b
    rw [splitOnChar_cons]
    match h : splitOnChar sep b with
    | [] => exact absurd h (splitOnChar_ne_nil sep b)
    | s :: ss => simp
  | cons c a' ih =>
    have hc : c ≠ sep := fun habs => ha (habs ▸ List.mem_cons_self c a')
    have ha' : sep ∉ a' := fun habs => ha (List.mem_cons_of_mem c habs)
    show splitOnChar sep (c :: (a' ++ sep :: b)) = (c :: a') :: splitOnChar sep b
    rw [splitOnChar_cons, ih ha']
    simp [hc]

/-- `New`'s acceptance characterized: either a null digest with empty
algorithm and sum, or a non-null kind with trimmed non-empty algorithm and
sum. -/
theorem new_ok_characterization (k a s : String) (d : Digest)
    (h : Digest.New k a s = Except.ok d) :
    (k = "null" ∧ d = { kind := "null" }) ∨
    ((k = "file" ∨ k = "dir" ∨ k = "symlink") ∧ trimSpace a ≠ "" ∧ trimSpace s ≠ "" ∧
      d = { kind := k, algorithm := trimSpace a, sum := trimSpace s }) := by
  unfold Digest.New validateKind at h
  split at h
  case isTrue hk =>
    simp only [Bind.bind, Except.bind] at h
    by_cases hnull : k = KindNull
    · rw [if_pos hnull] at h
      split at h
      · exact absurd h (by simp)
      · left
        refine ⟨hnull, ?_⟩
        simpa using h.symm
    · rw [if_neg hnull] at h
      split at h
      · exact absurd h (by simp)
      · split at h
        · exact absurd h (by simp)
        · right
          have hk' : k = "file" ∨ k = "dir" ∨ k = "symlink" := by
            rcases hk with h1 | h1 | h1 | h1
            · exact absurd h1 hnull
            · exact Or.inl h1
            · exact Or.inr (Or.inl h1)
            · exact Or.inr (Or.inr h1)
          refine ⟨hk', by assumption, by assumption, ?_⟩
          simpa using h.symm
  case isFalse => simp [Bind.bind, Except.bind] at h

/-- C8 counterexample: the digest `{file, sha256, "ab:cd"}` is accepted by
`New` (so it is a valid digest value) but `Parse (String d)` fails on it —
the claim's round trip does not hold for every valid digest. -/
theorem parse_toString_roundtrip_counterexample :
    (∃ k a s, Digest.New k a s =
      Except.ok { kind := "file", algorithm := "sha256", sum := "ab:cd" }) ∧
    Digest.Parse
        (Digest.toString { kind := "file", algorithm := "sha256", sum := "ab:cd" }) ≠
      Except.ok { kind := "file", algorithm := "sha256", sum := "ab:cd" } := by
  constructor
  · exact ⟨"file", "sha256", "ab:cd", by decide⟩
  · decide

theorem trimSpace_render_eq_self (k A S : String)
    (hk : k = "file" ∨ k = "dir" ∨ k = "symlink")
    (hA : trimSpace A = A) (hS : trimSpace S = S) (hSne : S ≠ "") :
    trimSpace (k ++ ":" ++ A ++ ":" ++ S) = k ++ ":" ++ A ++ ":" ++ S := by
  unfold trimSpace
  rw [show (k ++ ":" ++ A ++ ":" ++ S).data = k.data ++ (":".data ++ (A.data ++ (":".data ++ S.data))) by
    simp [String.data_append]]
  rw [trimChars_eq_self ?hh ?hl]
  · exact String.ext (by simp [String.data_append])
  case hh =>
    intro c hc
    rcases hk with h1 | h1 | h1 <;> subst h1 <;> simp at hc <;> subst hc <;> decide
  case hl =>
    intro c hc
    have hSdata : S.data ≠ [] := fun habs => hSne (by
      have := congrArg String.mk habs
      rwa [strMk_data] at this)
    rw [List.getLast?_append, List.getLast?_append, List.getLast?_append,
      List.getLast?_append] at hc
    have hlast : S.data.getLast? = some c := by
      match hS' : S.data.getLast? with
      | some c' =>
        rw [hS'] at hc
        simpa using hc
      | none =>
        exact absurd (List.getLast?_eq_none_iff.mp hS') hSdata
    have : (trimChars S.data).getLast? = some c := by
      rw [show trimChars S.data = S.data from by
        have := congrArg String.data hS
        simpa [trimSpace] using this]
      exact hlast
    exact trimChars_getLast this

/-- C8 (amended): for every digest accepted by `New` whose algorithm and sum
contain no `:`, `Parse (String d)` returns `d`; parsing `""` yields the zero
digest without error; parsing the malformed 2-part string `"file:sha256"`
fails. -/
theorem parse_toString_roundtrip (d : Digest)
    (hvalid : ∃ k a s, Digest.New k a s = Except.ok d)
    (halg : ':' ∉ d.algorithm.data) (hsum : ':' ∉ d.sum.data) :
    Digest.Parse d.toString = Except.ok d ∧
    Digest.Parse "" = Except.ok {} ∧
    (Digest.Parse "file:sha256").isOk = false := by
  refine ⟨?_, by decide, by decide⟩
  obtain ⟨k, a, s, hnew⟩ := hvalid
  rcases new_ok_characterization k a s d hnew with ⟨hk, hd⟩ | ⟨hk, hane, hsne, hd⟩
  · subst hd
    decide
  · subst hd
    simp only at halg hsum ⊢
    have hA : trimSpace (trimSpace a) = trimSpace a := trimSpace_idem a
    have hS : trimSpace (trimSpace s) = trimSpace s := trimSpace_idem s
    have hzero : Digest.IsZero { kind := k, algorithm := trimSpace a, sum := trimSpace s } = false := by
      rcases hk with h1 | h1 | h1 <;> subst h1 <;> rfl
    have hknull : k ≠ "null" := by
      rcases hk with h1 | h1 | h1 <;> subst h1 <;> decide
    have hrender : Digest.toString { kind := k, algorithm := trimSpace a, sum := trimSpace s } =
        k ++ ":" ++ trimSpace a ++ ":" ++ trimSpace s := by
      unfold Digest.toString
      rw [hzero]
      simp [hknull, KindNull]
    rw [hrender]
    unfold Digest.Parse
    rw [trimSpace_render_eq_self k (trimSpace a) (trimSpace s) hk hA hS hsne]
    have hne_empty : (k ++ ":" ++ trimSpace a ++ ":" ++ trimSpace s) ≠ "" := by
      rcases hk with h1 | h1 | h1 <;> subst h1 <;>
        simp [String.ext_iff, String.data_append]
    have hne_null : (k ++ ":" ++ trimSpace a ++ ":" ++ trimSpace s) ≠ KindNull := by
      rcases hk with h1 | h1 | h1 <;> subst h1 <;>
        simp [String.ext_iff, String.data_append, KindNull]
    rw [if_neg hne_empty, if_neg hne_null]
    have hsplit : splitString ':' (k ++ ":" ++ trimSpace a ++ ":" ++ trimSpace s) =
        [k, trimSpace a, trimSpace s] := by
      unfold splitString
      rw [show (k ++ ":" ++ trimSpace a ++ ":" ++ trimSpace s).data =
          k.data ++ ':' :: ((trimSpace a).data ++ ':' :: (trimSpace s).data) by
        simp [String.data_append]]
      have hknocolon : ':' ∉ k.data := by
        rcases hk with h1 | h1 | h1 <;> subst h1 <;> decide
      rw [splitOnChar_append ':' k.data _ hknocolon,
        splitOnChar_append ':' (trimSpace a).data _ halg,
        splitOnChar_nosep ':' (trimSpace s).data hsum]
      simp [strMk_data]
    rw [hsplit]
    show Digest.New k (trimSpace a) (trimSpace s) =
      Except.ok { kind := k, algorithm := trimSpace a, sum := trimSpace s }
    have hkvalid : (k = KindNull ∨ k = KindFile ∨ k = KindDir ∨ k = KindSymlink) := by
      rcases hk with h1 | h1 | h1 <;> subst h1 <;> simp [KindFile, KindDir, KindSymlink]
    unfold Digest.New validateKind
    rw [if_pos hkvalid]
    simp only [Bind.bind, Except.bind]
    rw [if_neg (by simpa [KindNull] using hknull), hA, if_neg hane, hS, if_neg hsne]

theorem parse_toString_roundtrip_witness :
    Digest.Parse (Digest.toString { kind := "file", algorithm := "sha256", sum := "abcd" }) =
      Except.ok { kind := "file", algorithm := "sha256", sum := "abcd" } ∧
    Digest.Parse "" = Except.ok {} ∧
    (Digest.Parse "file:sha256").isOk = false :=
  parse_toString_roundtrip { kind := "file", algorithm := "sha256", sum := "abcd" }
    ⟨"file", "sha256", "abcd", by decide⟩ (by decide) (by decide)

/-! ## Order lemmas for the Go string comparison -/

theorem lexLt_asymm : ∀ {a b : List Char}, lexLt a b = true → lexLt b a = false
  | [], [], h => by simp [lexLt] at h
  | [], _ :: _, _ => rfl
  | _ :: _, [], h => by simp [lexLt] at h
  | a :: as, b :: bs, h => by
    by_cases hab : a = b
    · subst hab
      simp only [lexLt, if_pos rfl] at h ⊢
      exact lexLt_asymm h
    · simp only [lexLt, if_neg hab] at h
      have hba : b ≠ a := fun habs => hab habs.symm
      simp only [lexLt, if_neg hba]
      simp only [decide_eq_true_eq] at h
      simpa using not_lt_of_gt h

theorem lexLt_trans : ∀ {a b c : List Char},
    lexLt a b = true → lexLt b c = true → lexLt a c = true
  | [], _, _ :: _, _, _ => rfl
  | [], _ :: _, [], _, h₂ => by simp [lexLt] at h₂
  | [], [], _, h₁, _ => by simp [lexLt] at h₁
  | _ :: _, [], _, h₁, _ => by simp [lexLt] at h₁
  | _ :: _, _ :: _, [], _, h₂ => by simp [lexLt] at h₂
  | a :: as, b :: bs, c :: cs, h₁, h₂ => by
    by_cases hab : a = b <;> by_cases hbc : b = c
    · subst hab; subst hbc
      simp only [lexLt, if_pos rfl] at h₁ h₂ ⊢
      exact lexLt_trans h₁ h₂
    · subst hab
      simp only [lexLt, if_pos rfl, if_neg hbc] at h₁ h₂ ⊢
      exact h₂
    · subst hbc
      simp only [lexLt, if_neg hab, if_pos rfl] at h₁ h₂ ⊢
      exact h₁
    · simp only [lexLt, if_neg hab, if_neg hbc, decide_eq_true_eq] at h₁ h₂
      have hac : a ≠ c := fun habs => absurd (habs ▸ h₁) (not_lt_of_gt h₂)
      simp only [lexLt, if_neg hac, decide_eq_true_eq]
      exact lt_trans h₁ h₂

theorem lexLt_connex : ∀ {a b : List Char}, a ≠ b → lexLt a b = true ∨ lexLt b a = true
  | [], [], h => absurd rfl h
  | [], _ :: _, _ => Or.inl rfl
  | _ :: _, [], _ => Or.inr rfl
  | a :: as, b :: bs, h => by
    by_cases hab : a = b
    · subst hab
      have has : as ≠ bs := fun habs => h (by rw [habs])
      simp only [lexLt, if_pos rfl]
      exact lexLt_connex has
    · have hba : b ≠ a := fun habs => hab habs.symm
      simp only [lexLt, if_neg hab, if_neg hba, decide_eq_true_eq]
      exact lt_or_gt_of_ne hab

theorem strLe_total (a b : String) : strLe a b = true ∨ strLe b a = true := by
  unfold strLe strLt
  by_cases h : lexLt b.data a.data = true
  · right
    by_cases h' : lexLt a.data b.data = true
    · exact absurd (lexLt_asymm h') (by simp [h])
    · simp [h']
  · left
    simp [h]

theorem strLe_trans {a b c : String} (h₁ : strLe a b = true) (h₂ : strLe b c = true) :
    strLe a c = true := by
  unfold strLe strLt at h₁ h₂ ⊢
  simp only [Bool.not_eq_true'] at h₁ h₂ ⊢
  by_contra habs
  simp only [Bool.not_eq_false] at habs
  by_cases hcb : c.data = b.data
  · rw [hcb] at habs
    exact absurd habs (by simp [h₁])
  · rcases lexLt_connex hcb with hlt | hlt
    · exact absurd hlt (by simp [h₂])
    · exact absurd (lexLt_trans hlt habs) (by simp [h₁])

theorem strLe_antisymm {a b : String} (h₁ : strLe a b = true) (h₂ : strLe b a = true) :
    a = b := by
  unfold strLe strLt at h₁ h₂
  simp only [Bool.not_eq_true'] at h₁ h₂
  by_contra hne
  have : a.data ≠ b.data := fun habs => hne (String.ext habs)
  rcases lexLt_connex this with h | h
  · exact absurd h (by simp [h₂])
  · exact absurd h (by simp [h₁])

theorem strLt_of_strLe_of_ne {a b : String} (h : strLe a b = true) (hne : a ≠ b) :
    strLt a b = true := by
  unfold strLe strLt at h
  unfold strLt
  simp only [Bool.not_eq_true'] at h
  have : a.data ≠ b.data := fun habs => hne (String.ext habs)
  rcases lexLt_connex this with h' | h'
  · exact h'
  · exact absurd h' (by simp [h])

theorem strLt_asymm {a b : String} (h : strLt a b = true) : strLt b a = false := by
  unfold strLt at h ⊢
  exact lexLt_asymm h

/-! ## Canonical path lemmas -/

theorem cleanStack_skip_empty (rooted : Bool) (stack rest : List String) :
    cleanStack rooted stack ("" :: rest) = cleanStack rooted stack rest := rfl

theorem cleanStack_slash_pair (rooted : Bool) : cleanStack rooted [] ["", ""] = [] := by
  cases rooted <;> rfl

theorem splitOnChar_cons_sep (sep : Char) (l : List Char) :
    splitOnChar sep (sep :: l) = [] :: splitOnChar sep l := by
  rw [splitOnChar_cons]
  match h : splitOnChar sep l with
  | [] => exact absurd h (splitOnChar_ne_nil sep l)
  | s :: ss => simp

theorem splitOnChar_joinWithSlash (comps : List (List Char))
    (h : ∀ c ∈ comps, '/' ∉ c) (hne : comps ≠ []) :
    splitOnChar '/' (joinWithSlash comps) = comps := by
  induction comps with
  | nil => exact absurd rfl hne
  | cons c rest ih =>
    cases rest with
    | nil =>
      show splitOnChar '/' c = [c]
      exact splitOnChar_nosep '/' c (h c (List.mem_cons_self c []))
    | cons c' rest' =>
      show splitOnChar '/' (c ++ '/' :: joinWithSlash (c' :: rest')) = c :: c' :: rest'
      rw [splitOnChar_append '/' c _ (h c (List.mem_cons_self c _))]
      rw [ih (fun x hx => h x (List.mem_cons_of_mem c hx)) (by simp)]

theorem compsToAbs_data (comps : List String) :
    (compsToAbs comps).data = '/' :: joinWithSlash (comps.map String.data) := by
  unfold compsToAbs joinComps
  simp [String.data_append]

theorem splitString_compsToAbs (comps : List String)
    (h : ∀ c ∈ comps, normalComp c) (hne : comps ≠ []) :
    splitString '/' (compsToAbs comps) = "" :: comps := by
  unfold splitString
  rw [compsToAbs_data, splitOnChar_cons_sep]
  rw [splitOnChar_joinWithSlash (comps.map String.data)
    (fun c hc => by
      obtain ⟨x, hx, rfl⟩ := List.mem_map.mp hc
      exact (h x hx).2.2.2)
    (by simpa using hne)]
  simp only [List.map_cons, List.map_map]
  rw [show (String.mk [] : String) = "" from rfl]
  congr 1
  rw [show String.mk ∘ String.data = id from funext strMk_data, List.map_id]

theorem cleanStack_normal (rooted : Bool) (stack : List String) (comps : List String)
    (h : ∀ c ∈ comps, normalComp c) :
    cleanStack rooted stack comps = stack.reverse ++ comps := by
  induction comps generalizing stack with
  | nil => simp [cleanStack]
  | cons c rest ih =>
    obtain ⟨h1, h2, h3, _⟩ := h c (List.mem_cons_self c rest)
    unfold cleanStack
    rw [if_neg (by simp [h1, h2]), if_neg h3,
      ih (c :: stack) (fun x hx => h x (List.mem_cons_of_mem c hx))]
    simp

theorem resolveComps_compsToAbs (comps : List String)
    (h : ∀ c ∈ comps, normalComp c) :
    resolveComps (compsToAbs comps) = comps := by
  cases hc : comps with
  | nil => rfl
  | cons c rest =>
    unfold resolveComps
    rw [← hc, splitString_compsToAbs comps h (by simp [hc]), cleanStack_skip_empty]
    exact cleanStack_normal true [] comps h

theorem compsToAbs_ne_dot (comps : List String) : compsToAbs comps ≠ "." := by
  intro habs
  have := congrArg String.data habs
  rw [compsToAbs_data] at this
  simp at this

theorem compsToAbs_injective {comps₁ comps₂ : List String}
    (h₁ : ∀ c ∈ comps₁, normalComp c) (h₂ : ∀ c ∈ comps₂, normalComp c)
    (h : compsToAbs comps₁ = compsToAbs comps₂) : comps₁ = comps₂ := by
  have := congrArg resolveComps h
  rwa [resolveComps_compsToAbs comps₁ h₁, resolveComps_compsToAbs comps₂ h₂] at this

theorem cleanPath_compsToAbs (comps : List String)
    (h : ∀ c ∈ comps, normalComp c) :
    cleanPath (compsToAbs comps) = compsToAbs comps := by
  unfold cleanPath
  rw [if_neg (by
    intro habs
    have := congrArg String.data habs
    rw [compsToAbs_data] at this
    simp at this)]
  rw [if_pos (by rw [compsToAbs_data]; rfl)]
  cases comps with
  | nil => decide
  | cons c rest =>
    rw [splitString_compsToAbs (c :: rest) h (by simp), cleanStack_skip_empty]
    rw [cleanStack_normal true [] (c :: rest) h]
    rfl

theorem pathDepth_compsToAbs (comps : List String)
    (h : ∀ c ∈ comps, normalComp c) :
    pathDepth (compsToAbs comps) = comps.length := by
  unfold pathDepth
  rw [cleanPath_compsToAbs comps h, if_neg (compsToAbs_ne_dot comps)]
  cases comps with
  | nil => decide
  | cons c rest =>
    rw [splitString_compsToAbs (c :: rest) h (by simp)]
    rw [show ("" :: c :: rest).filter (· ≠ "") = (c :: rest).filter (· ≠ "") from by simp]
    rw [List.filter_eq_self.mpr (fun x hx => by simpa using (h x hx).1)]

/-! ## C4 — directory digest order independence -/

theorem sortRecords_eq_of_perm (l₁ l₂ : List dirRecord) (hperm : l₁.Perm l₂)
    (hnodup : (l₁.map dirRecord.relPath).Nodup) :
    l₁.insertionSort (fun a b => strLe a.relPath b.relPath = true) =
      l₂.insertionSort (fun a b => strLe a.relPath b.relPath = true) := by
  haveI htot : IsTotal dirRecord (fun a b => strLe a.relPath b.relPath = true) :=
    ⟨fun a b => strLe_total a.relPath b.relPath⟩
  haveI htrans : IsTrans dirRecord (fun a b => strLe a.relPath b.relPath = true) :=
    ⟨fun _ _ _ => strLe_trans⟩
  have hs₁ := List.sorted_insertionSort (fun a b : dirRecord => strLe a.relPath b.relPath = true) l₁
  have hs₂ := List.sorted_insertionSort (fun a b : dirRecord => strLe a.relPath b.relPath = true) l₂
  have hp₁ := List.perm_insertionSort (fun a b : dirRecord => strLe a.relPath b.relPath = true) l₁
  have hp₂ := List.perm_insertionSort (fun a b : dirRecord => strLe a.relPath b.relPath = true) l₂
  have hperm' : (l₁.insertionSort (fun a b => strLe a.relPath b.relPath = true)).Perm
      (l₂.insertionSort (fun a b => strLe a.relPath b.relPath = true)) :=
    (hp₁.trans hperm).trans hp₂.symm
  have hnodup₁ : ((l₁.insertionSort (fun a b => strLe a.relPath b.relPath = true)).map
      dirRecord.relPath).Nodup :=
    ((hp₁.map dirRecord.relPath).nodup_iff).mpr hnodup
  have hnodup₂ : ((l₂.insertionSort (fun a b => strLe a.relPath b.relPath = true)).map
      dirRecord.relPath).Nodup := by
    refine ((hp₂.map dirRecord.relPath).nodup_iff).mpr ?_
    exact ((hperm.map dirRecord.relPath).nodup_iff).mp hnodup
  have hstrict : ∀ (l : List dirRecord),
      List.Sorted (fun a b : dirRecord => strLe a.relPath b.relPath = true) l →
      (l.map dirRecord.relPath).Nodup →
      List.Sorted (fun a b : dirRecord => strLt a.relPath b.relPath = true) l := by
    intro l hsort hnd
    have hne : List.Pairwise (fun a b : dirRecord => a.relPath ≠ b.relPath) l :=
      List.pairwise_map.mp hnd
    exact (hsort.and hne).imp (fun h => strLt_of_strLe_of_ne h.1 h.2)
  haveI : IsAntisymm dirRecord (fun a b => strLt a.relPath b.relPath = true) :=
    ⟨fun a b h₁ h₂ => absurd h₂ (by simp [strLt_asymm h₁])⟩
  exact List.eq_of_perm_of_sorted hperm'
    (hstrict _ hs₁ hnodup₁) (hstrict _ hs₂ hnodup₂)

/-- C4: two directories whose walks produce the same set of
(relative path, type, payload) records — in any traversal or creation
order — receive identical digests: `hashDir` sorts records by relative path
before hashing. -/
theorem digest_dir_order_independent (fs₁ fs₂ : FS) (a b : String)
    (h₁ : fsFind fs₁ (resolveComps a) = some Node.dir)
    (h₂ : fsFind fs₂ (resolveComps b) = some Node.dir)
    (hrec : (dirRecordsOf fs₁ (resolveComps a)).Perm (dirRecordsOf fs₂ (resolveComps b)))
    (hnodup : ((dirRecordsOf fs₁ (resolveComps a)).map dirRecord.relPath).Nodup) :
    digestOfPath fs₁ a = digestOfPath fs₂ b := by
  unfold digestOfPath
  rw [h₁, h₂]
  unfold hashDirRecords
  rw [sortRecords_eq_of_perm _ _ hrec hnodup]

theorem digest_dir_order_independent_witness :
    digestOfPath [(["d"], Node.dir), (["d", "x"], Node.file "u"), (["d", "y"], Node.file "v")] "/d" =
      digestOfPath [(["d", "y"], Node.file "v"), (["d", "x"], Node.file "u"), (["d"], Node.dir)] "/d" :=
  digest_dir_order_independent _ _ "/d" "/d" (by decide) (by decide)
    (by decide) (by decide)

/-! ## C7 — unload removal order -/

/-- C7: `orderManagedFilesForRemoval` arranges the managed entries in
descending path-depth order with ties broken by reverse lexicographic path,
so a nested managed path is processed strictly before any of its ancestor
paths. -/
theorem unload_order_deepest_first (files : List LockFile) :
    (orderManagedFilesForRemoval files).Perm files ∧
    List.Sorted (fun a b : LockFile =>
      pathDepth a.path > pathDepth b.path ∨
        (pathDepth a.path = pathDepth b.path ∧ strLe b.path a.path = true))
      (orderManagedFilesForRemoval files) ∧
    (∀ (i j : Fin (orderManagedFilesForRemoval files).length)
      (comps rest : List String),
      (∀ c ∈ comps, normalComp c) → (∀ c ∈ rest, normalComp c) → rest ≠ [] →
      ((orderManagedFilesForRemoval files).get i).path = compsToAbs comps →
      ((orderManagedFilesForRemoval files).get j).path = compsToAbs (comps ++ rest) →
      j < i) := by
  haveI htot : IsTotal LockFile (fun a b : LockFile =>
      pathDepth a.path > pathDepth b.path ∨
        (pathDepth a.path = pathDepth b.path ∧ strLe b.path a.path = true)) := by
    constructor
    intro a b
    rcases Nat.lt_trichotomy (pathDepth a.path) (pathDepth b.path) with h | h | h
    · exact Or.inr (Or.inl h)
    · rcases strLe_total b.path a.path with h' | h'
      · exact Or.inl (Or.inr ⟨h, h'⟩)
      · exact Or.inr (Or.inr ⟨h.symm, h'⟩)
    · exact Or.inl (Or.inl h)
  haveI htrans : IsTrans LockFile (fun a b : LockFile =>
      pathDepth a.path > pathDepth b.path ∨
        (pathDepth a.path = pathDepth b.path ∧ strLe b.path a.path = true)) := by
    constructor
    rintro a b c (hab | ⟨hab, hab'⟩) (hbc | ⟨hbc, hbc'⟩)
    · exact Or.inl (lt_trans hbc hab)
    · exact Or.inl (hbc ▸ hab)
    · exact Or.inl (hab ▸ hbc)
    · exact Or.inr ⟨hab.trans hbc, strLe_trans hbc' hab'⟩
  have hsorted : List.Sorted (fun a b : LockFile =>
      pathDepth a.path > pathDepth b.path ∨
        (pathDepth a.path = pathDepth b.path ∧ strLe b.path a.path = true))
      (orderManagedFilesForRemoval files) := List.sorted_insertionSort _ files
  refine ⟨List.perm_insertionSort _ files, hsorted, ?_⟩
  intro i j comps rest hcn hrn hrne hi hj
  have hall : ∀ c ∈ comps ++ rest, normalComp c := by
    intro c hc
    rcases List.mem_append.mp hc with h | h
    · exact hcn c h
    · exact hrn c h
  have hdi : pathDepth ((orderManagedFilesForRemoval files).get i).path = comps.length := by
    rw [hi]; exact pathDepth_compsToAbs comps hcn
  have hdj : pathDepth ((orderManagedFilesForRemoval files).get j).path =
      comps.length + rest.length := by
    rw [hj, pathDepth_compsToAbs _ hall, List.length_append]
  have hrl : 0 < rest.length := List.length_pos.mpr hrne
  by_contra hnot
  push_neg at hnot
  rcases lt_or_eq_of_le hnot with hlt | heq
  · have hrel := hsorted.rel_get_of_lt hlt
    rcases hrel with h | ⟨h, _⟩
    · rw [hdi, hdj] at h
      omega
    · rw [hdi, hdj] at h
      omega
  · have : ((orderManagedFilesForRemoval files).get i).path =
        ((orderManagedFilesForRemoval files).get j).path := by rw [heq]
    rw [hi, hj] at this
    have := compsToAbs_injective hcn hall this
    have : comps.length = comps.length + rest.length := by
      conv_lhs => rw [this]
      rw [List.length_append]
    omega

theorem unload_order_deepest_first_witness :
    (⟨0, by decide⟩ : Fin (orderManagedFilesForRemoval
        [{ path := "/a", curr := { path := "/a", digest := "" }, prev := none },
         { path := "/a/b", curr := { path := "/a/b", digest := "" }, prev := none }]).length) <
      ⟨1, by decide⟩ :=
  (unload_order_deepest_first
      [{ path := "/a", curr := { path := "/a", digest := "" }, prev := none },
       { path := "/a/b", curr := { path := "/a/b", digest := "" }, prev := none }]).2.2
    ⟨1, by decide⟩ ⟨0, by decide⟩ ["a"] ["b"]
    (by decide) (by decide) (by decide) (by decide) (by decide)

theorem removePath_safety_witness :
    removePath "a/.." { fs := [], lockFile := DefaultLock, events := [] } =
      ({ fs := [], lockFile := DefaultLock, events := [] },
        Except.error ("refusing to remove unsafe path: " ++ "a/..")) ∧
    removePath "/missing" { fs := [], lockFile := DefaultLock, events := [] } =
      ({ fs := [], lockFile := DefaultLock, events := [] }, Except.ok ()) :=
  ⟨(removePath_safety "a/.." _).1 (Or.inl (by decide)),
   (removePath_safety "/missing" _).2 (by decide) (by decide) (by decide)⟩

/-! ## Filesystem and snapshot helper lemmas -/

theorem snapshotObjectIfExists_some {sys : Sys} {path d : String}
    (h : digestOfPath sys.fs path = some d) :
    snapshotObjectIfExists path sys =
      (sys, Except.ok ({ path := path, digest := d }, true)) := by
  unfold snapshotObjectIfExists
  simp [h]

theorem snapshotObjectIfExists_none {sys : Sys} {path : String}
    (h : digestOfPath sys.fs path = none) :
    snapshotObjectIfExists path sys =
      (sys, Except.ok ({ path := "", digest := "" }, false)) := by
  unfold snapshotObjectIfExists
  simp [h]

theorem isKeyPrefix_refl (key : FsKey) : isKeyPrefix key key = true := by
  induction key with
  | nil => rfl
  | cons a as ih => simp [isKeyPrefix, ih]

theorem fsFind_fsRemoveExact (fs : FS) (key : FsKey) :
    fsFind (fsRemoveExact fs key) key = none := by
  induction fs with
  | nil => rfl
  | cons kn rest ih =>
    obtain ⟨k, n⟩ := kn
    by_cases h : k = key
    · rw [show fsRemoveExact ((k, n) :: rest) key = fsRemoveExact rest key from by
        simp [fsRemoveExact, List.filter_cons, h]]
      exact ih
    · rw [show fsRemoveExact ((k, n) :: rest) key = (k, n) :: fsRemoveExact rest key from by
        simp [fsRemoveExact, List.filter_cons, h]]
      rw [show fsFind ((k, n) :: fsRemoveExact rest key) key =
          fsFind (fsRemoveExact rest key) key from by simp [fsFind, h]]
      exact ih

theorem fsFind_fsRemoveSubtree (fs : FS) (key key' : FsKey) :
    fsFind (fsRemoveSubtree fs key) key' =
      if isKeyPrefix key key' = true then none else fsFind fs key' := by
  induction fs with
  | nil =>
    show (none : Option Node) = if isKeyPrefix key key' = true then none else none
    split <;> rfl
  | cons kn rest ih =>
    obtain ⟨k, n⟩ := kn
    by_cases hk : isKeyPrefix key k = true
    · rw [show fsRemoveSubtree ((k, n) :: rest) key = fsRemoveSubtree rest key from by
        simp [fsRemoveSubtree, List.filter_cons, hk]]
      rw [ih]
      by_cases hpre : isKeyPrefix key key' = true
      · simp [hpre]
      · rw [if_neg hpre, if_neg hpre]
        have hne : k ≠ key' := fun habs => hpre (habs ▸ hk)
        simp [fsFind, hne]
    · rw [show fsRemoveSubtree ((k, n) :: rest) key = (k, n) :: fsRemoveSubtree rest key from by
        simp [fsRemoveSubtree, List.filter_cons, hk]]
      by_cases hkk : k = key'
      · subst hkk
        rw [if_neg (by simpa using hk)]
        simp [fsFind]
      · rw [show fsFind ((k, n) :: fsRemoveSubtree rest key) key' =
            fsFind (fsRemoveSubtree rest key) key' from by simp [fsFind, hkk]]
        rw [ih]
        split
        · rfl
        · simp [fsFind, hkk]

theorem fsFind_fsRemoveSubtree_self (fs : FS) (key : FsKey) :
    fsFind (fsRemoveSubtree fs key) key = none := by
  rw [fsFind_fsRemoveSubtree, if_pos (isKeyPrefix_refl key)]

/-! ## Run decomposition helpers -/

theorem bind_ok_decompose {α β : Type} {x : M α} {f : α → M β} {sys sys' : Sys} {b : β}
    (h : (x >>= f) sys = (sys', Except.ok b)) :
    ∃ s1 a, x sys = (s1, Except.ok a) ∧ f a s1 = (sys', Except.ok b) := by
  rw [mBind_eq] at h
  match hx : x sys with
  | (s1, Except.ok a) =>
    rw [hx] at h
    exact ⟨s1, a, rfl, h⟩
  | (s1, Except.error e) =>
    rw [hx] at h
    simp at h

theorem mWrapErr_ok_decompose {α : Type} {wrap : String → String} {x : M α}
    {sys sys' : Sys} {a : α}
    (h : mWrapErr wrap x sys = (sys', Except.ok a)) : x sys = (sys', Except.ok a) := by
  rw [mWrapErr_eq] at h
  match hx : x sys with
  | (s1, Except.ok a') =>
    rw [hx] at h
    exact h
  | (s1, Except.error e) =>
    rw [hx] at h
    simp at h

theorem mOfExcept_ok_decompose {α : Type} {x : Except String α} {wrap : String → String}
    {sys sys' : Sys} {a : α}
    (h : mOfExcept x wrap sys = (sys', Except.ok a)) : x = Except.ok a ∧ sys' = sys := by
  cases x with
  | ok b =>
    rw [mOfExcept_ok, mPure_eq] at h
    obtain ⟨h1, h2⟩ := Prod.mk.injEq .. ▸ h
    simp only [Except.ok.injEq] at h2
    exact ⟨by rw [h2], h1.symm⟩
  | error e =>
    rw [mOfExcept_error, mThrow_eq] at h
    simp at h

theorem snapshotObjectIfExists_eq (path : String) (sys : Sys) :
    snapshotObjectIfExists path sys =
      (sys, Except.ok (match digestOfPath sys.fs path with
        | none => ({ path := "", digest := "" }, false)
        | some d => ({ path := path, digest := d }, true))) := by
  unfold snapshotObjectIfExists
  cases h : digestOfPath sys.fs path <;> simp [h]

/-- `removePath` touches only the filesystem. -/
theorem removePath_shape (path : String) (sys : Sys) :
    ∃ fs' r, removePath path sys = ({ sys with fs := fs' }, r) := by
  unfold removePath
  by_cases h : cleanPath path = "." ∨ cleanPath path = "/"
  · rw [if_pos h]
    exact ⟨sys.fs, _, rfl⟩
  · rw [if_neg h]
    simp only [mBind_eq, getSys_eq]
    match hf : fsFind sys.fs (resolveComps (cleanPath path)) with
    | none => exact ⟨sys.fs, _, rfl⟩
    | some Node.dir => exact ⟨_, _, rfl⟩
    | some (Node.file c) => exact ⟨_, _, rfl⟩
    | some (Node.symlink t) => exact ⟨_, _, rfl⟩

/-- `mkdirAllM` touches only the filesystem. -/
theorem mkdirAllM_shape (path : String) (sys : Sys) :
    ∃ fs' r, mkdirAllM path sys = ({ sys with fs := fs' }, r) := by
  unfold mkdirAllM
  simp only [mBind_eq, getSys_eq]
  match hf : mkdirAllFrom sys.fs [] (resolveComps path) with
  | Except.ok fs' => exact ⟨fs', _, rfl⟩
  | Except.error e => exact ⟨sys.fs, _, rfl⟩

/-- `copyFileM` touches only the filesystem. -/
theorem copyFileM_shape (src dest : String) (sys : Sys) :
    ∃ fs' r, copyFileM src dest sys = ({ sys with fs := fs' }, r) := by
  unfold copyFileM
  simp only [mBind_eq, getSys_eq]
  match hf : fsFind sys.fs (resolveComps src) with
  | none => exact ⟨sys.fs, _, rfl⟩
  | some (Node.symlink t) => exact ⟨sys.fs, _, rfl⟩
  | some Node.dir => exact ⟨sys.fs, _, rfl⟩
  | some (Node.file c) =>
    obtain ⟨fsm, rm, hm⟩ := mkdirAllM_shape (compsToAbs (resolveComps dest).dropLast) sys
    simp only [mBind_eq, hm]
    match rm with
    | Except.ok () => exact ⟨_, _, rfl⟩
    | Except.error e => exact ⟨fsm, _, rfl⟩

/-- `symlinkM` touches only the filesystem. -/
theorem symlinkM_shape (target dest : String) (sys : Sys) :
    ∃ fs' r, symlinkM target dest sys = ({ sys with fs := fs' }, r) := by
  unfold symlinkM
  simp only [mBind_eq, getSys_eq]
  match hf : fsFind sys.fs (resolveComps dest) with
  | none => exact ⟨_, _, rfl⟩
  | some n => exact ⟨sys.fs, _, rfl⟩

/-- `copyPathM` touches only the filesystem. -/
theorem copyPathM_shape (src dest : String) (sys : Sys) :
    ∃ fs' r, copyPathM src dest sys = ({ sys with fs := fs' }, r) := by
  unfold copyPathM
  simp only [mBind_eq, getSys_eq]
  match hf : fsFind sys.fs (resolveComps src) with
  | none => exact ⟨sys.fs, _, rfl⟩
  | some (Node.symlink t) =>
    obtain ⟨fsm, rm, hm⟩ := mkdirAllM_shape (compsToAbs (resolveComps dest).dropLast) sys
    simp only [mBind_eq, hm]
    match rm with
    | Except.error e => exact ⟨fsm, _, rfl⟩
    | Except.ok () =>
      simp only [mBind_eq, getSys_eq]
      match hf2 : fsFind ({ sys with fs := fsm } : Sys).fs (resolveComps dest) with
      | none => exact ⟨_, _, rfl⟩
      | some n => exact ⟨fsm, _, rfl⟩
  | some (Node.file c) =>
    obtain ⟨fsm, rm, hm⟩ := mkdirAllM_shape (compsToAbs (resolveComps dest).dropLast) sys
    simp only [mBind_eq, hm]
    match rm with
    | Except.error e => exact ⟨fsm, _, rfl⟩
    | Except.ok () => exact ⟨_, _, rfl⟩
  | some Node.dir =>
    simp only [mBind_eq, getSys_eq]
    match hm : mkdirAllFrom sys.fs [] (resolveComps dest) with
    | Except.error e => exact ⟨sys.fs, _, rfl⟩
    | Except.ok fs' => exact ⟨_, _, rfl⟩

/-! ## Unload phase characterization (C2) -/

/-- A successful non-forced `removeManagedObject` on a non-blank path
records exactly one removal event and leaves the lock untouched. -/
theorem removeManagedObject_false_ok {managed : LockFile} {sys sys' : Sys}
    (hne : trimSpace managed.path ≠ "")
    (hrun : removeManagedObject managed false sys = (sys', Except.ok ())) :
    ∃ fs', sys' = { fs := fs', lockFile := sys.lockFile,
                    events := sys.events ++ [Event.remove (trimSpace managed.path)] } := by
  unfold removeManagedObject at hrun
  rw [if_neg hne] at hrun
  obtain ⟨s1, pair, hsnap, hrun1⟩ := bind_ok_decompose hrun
  beta_reduce at hrun1
  rw [snapshotObjectIfExists_eq] at hsnap
  obtain ⟨hs1, hpair⟩ := Prod.mk.injEq .. ▸ hsnap
  simp only [Except.ok.injEq] at hpair
  rw [← hs1] at hrun1
  match hd : digestOfPath sys.fs (trimSpace managed.path) with
  | none =>
    rw [hd] at hpair
    rw [← hpair] at hrun1
    simp only [eq_self_iff_true, if_true, Bool.false_eq_true, if_false, mThrow_eq] at hrun1
    simp at hrun1
  | some d =>
    rw [hd] at hpair
    rw [← hpair] at hrun1
    simp only [Bool.true_eq_false, if_false, eq_self_iff_true, if_true, true_and] at hrun1
    obtain ⟨s2, exp, hexp1, hrun2⟩ := bind_ok_decompose hrun1
    beta_reduce at hrun2
    obtain ⟨hexp2, hs2⟩ := mOfExcept_ok_decompose hexp1
    rw [hs2] at hrun2
    obtain ⟨s3, act, hact1, hrun3⟩ := bind_ok_decompose hrun2
    beta_reduce at hrun3
    obtain ⟨hact2, hs3⟩ := mOfExcept_ok_decompose hact1
    rw [hs3] at hrun3
    by_cases hcond : exp.IsZero = false ∧ exp.toString ≠ act.toString
    · rw [if_pos hcond, mThrow_eq] at hrun3
      simp at hrun3
    · rw [if_neg hcond] at hrun3
      obtain ⟨s4, u, hrp1, hrun4⟩ := bind_ok_decompose hrun3
      beta_reduce at hrun4
      have hrp2 := mWrapErr_ok_decompose hrp1
      obtain ⟨fs', r, hshape⟩ := removePath_shape (trimSpace managed.path) sys
      rw [hshape] at hrp2
      obtain ⟨hs4, hr⟩ := Prod.mk.injEq .. ▸ hrp2
      rw [← hs4, emit_eq] at hrun4
      obtain ⟨hs', _⟩ := Prod.mk.injEq .. ▸ hrun4
      exact ⟨fs', hs'.symm⟩

/-- A successful non-forced restore of a non-degenerate backup reference
records exactly one `copyPath` event into the destination. -/
theorem restoreBackupObject_false_ok {st : GoStore} {prevObj : Obj} {destination : String}
    {sys sys' : Sys}
    (hrun : restoreBackupObject st (some prevObj) destination false sys = (sys', Except.ok ()))
    (hdig : prevObj.digest ≠ "")
    (hnz : trimSpace prevObj.path ≠ "" ∨
      ∃ d, Digest.Parse prevObj.digest = Except.ok d ∧ d.IsZero = false) :
    ∃ fs' b, sys' = { fs := fs', lockFile := sys.lockFile,
                      events := sys.events ++ [Event.copyPath b destination] } := by
  unfold restoreBackupObject at hrun
  obtain ⟨s1, bpOpt, hbp1, hrun1⟩ := bind_ok_decompose hrun
  beta_reduce at hrun1
  have hbp2 : s1 = sys ∧ ∃ bp, bpOpt = some bp := by
    by_cases htrim : trimSpace prevObj.path = ""
    · rw [if_pos htrim] at hbp1
      obtain ⟨s0, d, hparse1, hbp3⟩ := bind_ok_decompose hbp1
      beta_reduce at hbp3
      obtain ⟨hparse2, hs0⟩ := mOfExcept_ok_decompose hparse1
      rw [hs0] at hbp3
      split at hbp3
      · rcases hnz with h | ⟨d', hd', hz'⟩
        · exact absurd htrim h
        · rw [hparse2] at hd'
          simp only [Except.ok.injEq] at hd'
          subst hd'
          simp_all
      · rw [mPure_eq] at hbp3
        obtain ⟨h1, h2⟩ := Prod.mk.injEq .. ▸ hbp3
        simp only [Except.ok.injEq] at h2
        exact ⟨h1.symm, _, h2.symm⟩
    · rw [if_neg htrim, mPure_eq] at hbp1
      obtain ⟨h1, h2⟩ := Prod.mk.injEq .. ▸ hbp1
      simp only [Except.ok.injEq] at h2
      exact ⟨h1.symm, _, h2.symm⟩
  obtain ⟨hs1, bp, hbpv⟩ := hbp2
  rw [hbpv] at hrun1
  rw [hs1] at hrun1
  obtain ⟨s2, pair, hsnap, hrun2⟩ := bind_ok_decompose hrun1
  beta_reduce at hrun2
  rw [snapshotObjectIfExists_eq] at hsnap
  obtain ⟨hs2, hpair⟩ := Prod.mk.injEq .. ▸ hsnap
  simp only [Except.ok.injEq] at hpair
  rw [← hs2] at hrun2
  match hd : digestOfPath sys.fs bp with
  | none =>
    rw [hd] at hpair
    rw [← hpair] at hrun2
    simp only [eq_self_iff_true, if_true, Bool.false_eq_true, if_false, mThrow_eq] at hrun2
    simp at hrun2
  | some bd =>
    rw [hd] at hpair
    rw [← hpair] at hrun2
    simp only [Bool.true_eq_false, if_false, eq_self_iff_true, if_true] at hrun2
    by_cases hmis : prevObj.digest ≠ "" ∧ bd ≠ prevObj.digest ∧ True
    · rw [if_pos hmis, mThrow_eq] at hrun2
      simp at hrun2
    · rw [if_neg hmis] at hrun2
      obtain ⟨s3, pair2, hsnap2, hrun3⟩ := bind_ok_decompose hrun2
      beta_reduce at hrun3
      rw [snapshotObjectIfExists_eq] at hsnap2
      obtain ⟨hs3, hpair2⟩ := Prod.mk.injEq .. ▸ hsnap2
      simp only [Except.ok.injEq] at hpair2
      rw [← hs3] at hrun3
      match hdd : digestOfPath sys.fs destination with
      | some dd =>
        rw [hdd] at hpair2
        rw [← hpair2] at hrun3
        simp only [eq_self_iff_true, if_true, mBind_eq, mThrow_eq] at hrun3
        simp at hrun3
      | none =>
        rw [hdd] at hpair2
        rw [← hpair2] at hrun3
        simp only [Bool.false_eq_true, if_false] at hrun3
        obtain ⟨s4, u4, hpure, hrun4⟩ := bind_ok_decompose hrun3
        beta_reduce at hrun4
        rw [mPure_eq] at hpure
        obtain ⟨hs4, _⟩ := Prod.mk.injEq .. ▸ hpure
        rw [← hs4] at hrun4
        obtain ⟨s5, u2, hcp1, hrun5⟩ := bind_ok_decompose hrun4
        beta_reduce at hrun5
        have hcp2 := mWrapErr_ok_decompose hcp1
        obtain ⟨fs', r, hshape⟩ := copyPathM_shape bp destination sys
        rw [hshape] at hcp2
        obtain ⟨hs5, _⟩ := Prod.mk.injEq .. ▸ hcp2
        rw [← hs5, emit_eq] at hrun5
        obtain ⟨hs', _⟩ := Prod.mk.injEq .. ▸ hrun5
        exact ⟨fs', bp, hs'.symm⟩

/-- One iteration of the unload loop, non-forced and successful: the entry
is removed (one removal event) and restored exactly under `restoreCond`. -/
theorem unloadStep_false_ok {st : GoStore} {occ : List String} {f : LockFile} {sys sys' : Sys}
    (hrun : unloadStep st occ false f sys = (sys', Except.ok ()))
    (hpath : trimSpace f.path = f.path) (hne : f.path ≠ "")
    (hnz : ∀ o, f.prev = some o → o.digest ≠ "" →
      trimSpace o.path ≠ "" ∨ ∃ d, Digest.Parse o.digest = Except.ok d ∧ d.IsZero = false) :
    sys'.lockFile = sys.lockFile ∧
      ((¬ restoreCond f occ ∧ sys'.events = sys.events ++ [Event.remove f.path]) ∨
       (restoreCond f occ ∧ ∃ b, sys'.events =
          sys.events ++ [Event.remove f.path, Event.copyPath b f.path])) := by
  unfold unloadStep at hrun
  obtain ⟨s1, u, hrm, hrun⟩ := bind_ok_decompose hrun
  beta_reduce at hrun
  obtain ⟨fs1, hshape⟩ := removeManagedObject_false_ok (by rw [hpath]; exact hne) hrm
  subst hshape
  rw [hpath] at hrun
  match hprev : f.prev with
  | none =>
    rw [hprev] at hrun
    simp only [mPure_eq] at hrun
    obtain ⟨hs', _⟩ := Prod.mk.injEq .. ▸ hrun
    refine ⟨by rw [← hs'], Or.inl ⟨?_, by rw [← hs']⟩⟩
    rintro ⟨⟨o, ho, _⟩, _⟩
    rw [hprev] at ho
    exact absurd ho (by simp)
  | some o =>
    rw [hprev] at hrun
    by_cases hod : o.digest ≠ ""
    · by_cases hocc : f.path ∈ occ
      · simp only [hocc, if_true] at hrun
        rw [if_pos hod, mPure_eq] at hrun
        obtain ⟨hs', _⟩ := Prod.mk.injEq .. ▸ hrun
        refine ⟨by rw [← hs'], Or.inl ⟨?_, by rw [← hs']⟩⟩
        rintro ⟨_, habs⟩
        exact habs hocc
      · simp only [hocc, if_false] at hrun
        rw [if_pos hod] at hrun
        obtain ⟨fs2, b, hshape2⟩ := restoreBackupObject_false_ok hrun hod (hnz o hprev hod)
        refine ⟨by rw [hshape2], Or.inr ⟨⟨⟨o, hprev, hod⟩, hocc⟩, b, ?_⟩⟩
        rw [hshape2]
        simp
    · have hod2 : o.digest = "" := by
        by_contra hc
        exact hod hc
      simp only [hod2, ne_eq, not_true_eq_false, if_false, eq_self_iff_true,
        mPure_eq] at hrun
      obtain ⟨hs', _⟩ := Prod.mk.injEq .. ▸ hrun
      refine ⟨by rw [← hs'], Or.inl ⟨?_, by rw [← hs']⟩⟩
      rintro ⟨⟨o', ho', hdig'⟩, _⟩
      rw [hprev] at ho'
      simp only [Option.some.injEq] at ho'
      subst ho'
      exact hod hdig'

/-- The unload loop, non-forced and successful: lock untouched, one removal
event per entry, and restore events for exactly the entries satisfying
`restoreCond`. -/
theorem unloadLoop_false_ok {st : GoStore} {occ : List String} :
    ∀ (l : List LockFile) (sys sys' : Sys),
    unloadLoop st occ false l sys = (sys', Except.ok ()) →
    (∀ f ∈ l, trimSpace f.path = f.path ∧ f.path ≠ "") →
    (∀ f ∈ l, ∀ o, f.prev = some o → o.digest ≠ "" →
      trimSpace o.path ≠ "" ∨ ∃ d, Digest.Parse o.digest = Except.ok d ∧ d.IsZero = false) →
    sys'.lockFile = sys.lockFile ∧
    (∀ e ∈ sys.events, e ∈ sys'.events) ∧
    (∀ f ∈ l, Event.remove f.path ∈ sys'.events) ∧
    (∀ p, (∃ b, Event.copyPath b p ∈ sys'.events) ↔
      ((∃ b, Event.copyPath b p ∈ sys.events) ∨ ∃ f ∈ l, f.path = p ∧ restoreCond f occ)) := by
  intro l
  induction l with
  | nil =>
    intro sys sys' hrun _ _
    unfold unloadLoop at hrun
    rw [mPure_eq] at hrun
    obtain ⟨hs', _⟩ := Prod.mk.injEq .. ▸ hrun
    subst hs'
    refine ⟨rfl, fun e he => he, by simp, fun p => ⟨fun h => Or.inl h, fun h => ?_⟩⟩
    rcases h with h | ⟨f, hf, _⟩
    · exact h
    · simp at hf
  | cons f rest ih =>
    intro sys sys' hrun hpaths hnz
    unfold unloadLoop at hrun
    obtain ⟨s1, u, hstep, hrun⟩ := bind_ok_decompose hrun
    beta_reduce at hrun
    have hf := hpaths f (List.mem_cons_self f rest)
    obtain ⟨hlock1, hcase⟩ := unloadStep_false_ok hstep hf.1 hf.2
      (hnz f (List.mem_cons_self f rest))
    obtain ⟨hlock, hmono, hrem, hiff⟩ := ih s1 sys' hrun
      (fun g hg => hpaths g (List.mem_cons_of_mem f hg))
      (fun g hg => hnz g (List.mem_cons_of_mem f hg))
    have hmono1 : ∀ e ∈ sys.events, e ∈ s1.events := by
      intro e he
      rcases hcase with ⟨_, h⟩ | ⟨_, b, h⟩ <;> rw [h] <;> exact List.mem_append_left _ he
    have hremf : Event.remove f.path ∈ s1.events := by
      rcases hcase with ⟨_, h⟩ | ⟨_, b, h⟩ <;> rw [h] <;> simp
    refine ⟨hlock.trans hlock1, fun e he => hmono e (hmono1 e he),
      fun g hg => ?_, fun p => ?_⟩
    · rcases List.mem_cons.mp hg with hgf | hgrest
      · subst hgf
        exact hmono _ hremf
      · exact hrem g hgrest
    · rw [hiff p]
      constructor
      · rintro (⟨b, hb⟩ | ⟨g, hg, hgp, hgc⟩)
        · rcases hcase with ⟨hnc, h⟩ | ⟨hc, b', h⟩
          · rw [h] at hb
            rcases List.mem_append.mp hb with hb | hb
            · exact Or.inl ⟨b, hb⟩
            · simp at hb
          · rw [h] at hb
            rcases List.mem_append.mp hb with hb | hb
            · exact Or.inl ⟨b, hb⟩
            · simp only [List.mem_cons, List.mem_singleton] at hb
              rcases hb with hb | hb | hb
              · exact absurd hb (by simp)
              · obtain ⟨hbb, hpp⟩ := Event.copyPath.injEq .. ▸ hb
                exact Or.inr ⟨f, List.mem_cons_self f rest, hpp.symm, hc⟩
              · simp at hb
        · exact Or.inr ⟨g, List.mem_cons_of_mem f hg, hgp, hgc⟩
      · rintro (⟨b, hb⟩ | ⟨g, hg, hgp, hgc⟩)
        · exact Or.inl ⟨b, hmono1 _ hb⟩
        · rcases List.mem_cons.mp hg with hgf | hgrest
          · subst hgf
            subst hgp
            rcases hcase with ⟨hnc, _⟩ | ⟨_, b', h⟩
            · exact absurd hgc hnc
            · refine Or.inl ⟨b', ?_⟩
              rw [h]
              simp
          · exact Or.inr ⟨g, hgrest, hgp, hgc⟩

/-! ## C2 — what the unload phase removes and restores -/

/-- C2 counterexample: a managed entry whose destination is also occupied
by the new operation set is still removed from disk by the unload phase —
it is not left untouched. -/
theorem unload_common_destination_removed :
    (unloadManagedPaths { root := "/root" }
        [{ path := "/t/m", curr := { path := "/t/m", digest := "file:sha256:x" }, prev := none }]
        ["/t/m"] false
        { fs := [(["t"], Node.dir), (["t", "m"], Node.file "x")]
          lockFile := DefaultLock, events := [] }).2 = Except.ok () ∧
    fsFind (unloadManagedPaths { root := "/root" }
        [{ path := "/t/m", curr := { path := "/t/m", digest := "file:sha256:x" }, prev := none }]
        ["/t/m"] false
        { fs := [(["t"], Node.dir), (["t", "m"], Node.file "x")]
          lockFile := DefaultLock, events := [] }).1.fs
      (resolveComps "/t/m") = none := by
  constructor <;> decide

/-- C2 (amended): in a successful non-forced unload phase, every managed
entry of the old state is removed (one removal event each), and a restore
into a destination happens exactly for the entries with a recorded backup
whose destination is not occupied by the new operation set. -/
theorem unload_phase_removals_and_restores (st : GoStore) (files : List LockFile)
    (occ : List String) (sys sys' : Sys)
    (hev : sys.events = [])
    (hrun : unloadManagedPaths st files occ false sys = (sys', Except.ok ()))
    (hpaths : ∀ f ∈ files, trimSpace f.path = f.path ∧ f.path ≠ "")
    (hnz : ∀ f ∈ files, ∀ o, f.prev = some o → o.digest ≠ "" →
      trimSpace o.path ≠ "" ∨ ∃ d, Digest.Parse o.digest = Except.ok d ∧ d.IsZero = false) :
    (∀ f ∈ files, Event.remove f.path ∈ sys'.events) ∧
    (∀ p, (∃ b, Event.copyPath b p ∈ sys'.events) ↔
      ∃ f ∈ files, f.path = p ∧ restoreCond f occ) := by
  unfold unloadManagedPaths at hrun
  have hperm : (orderManagedFilesForRemoval files).Perm files :=
    List.perm_insertionSort _ files
  obtain ⟨-, -, hrem, hiff⟩ := unloadLoop_false_ok (orderManagedFilesForRemoval files) sys sys'
    hrun
    (fun f hf => hpaths f (hperm.mem_iff.mp hf))
    (fun f hf => hnz f (hperm.mem_iff.mp hf))
  constructor
  · intro f hf
    exact hrem f (hperm.mem_iff.mpr hf)
  · intro p
    rw [hiff p, hev]
    simp only [List.not_mem_nil, false_and, exists_false, false_or]
    constructor
    · rintro ⟨f, hf, h1, h2⟩
      exact ⟨f, hperm.mem_iff.mp hf, h1, h2⟩
    · rintro ⟨f, hf, h1, h2⟩
      exact ⟨f, hperm.mem_iff.mpr hf, h1, h2⟩

theorem unload_phase_removals_and_restores_witness :
    Event.remove "/t/m" ∈
      (unloadManagedPaths { root := "/root" }
        [{ path := "/t/m", curr := { path := "/t/m", digest := "file:sha256:x" }
           prev := some { path := "/root/backups/cid/object", digest := "file:sha256:old" } }]
        [] false
        { fs := [(["t"], Node.dir), (["t", "m"], Node.file "x"),
                 (["root"], Node.dir), (["root", "backups"], Node.dir),
                 (["root", "backups", "cid"], Node.dir),
                 (["root", "backups", "cid", "object"], Node.file "old")]
          lockFile := DefaultLock, events := [] }).1.events :=
  ((unload_phase_removals_and_restores { root := "/root" }
      [{ path := "/t/m", curr := { path := "/t/m", digest := "file:sha256:x" }
         prev := some { path := "/root/backups/cid/object", digest := "file:sha256:old" } }]
      []
      { fs := [(["t"], Node.dir), (["t", "m"], Node.file "x"),
               (["root"], Node.dir), (["root", "backups"], Node.dir),
               (["root", "backups", "cid"], Node.dir),
               (["root", "backups", "cid", "object"], Node.file "old")]
        lockFile := DefaultLock, events := [] }
      (unloadManagedPaths { root := "/root" }
        [{ path := "/t/m", curr := { path := "/t/m", digest := "file:sha256:x" }
           prev := some { path := "/root/backups/cid/object", digest := "file:sha256:old" } }]
        [] false
        { fs := [(["t"], Node.dir), (["t", "m"], Node.file "x"),
                 (["root"], Node.dir), (["root", "backups"], Node.dir),
                 (["root", "backups", "cid"], Node.dir),
                 (["root", "backups", "cid", "object"], Node.file "old")]
          lockFile := DefaultLock, events := [] }).1
      rfl (by decide) (by decide)
      (by
        intro f hf o ho hdig
        simp only [List.mem_singleton] at hf
        subst hf
        simp only [Option.some.injEq] at ho
        subst ho
        exact Or.inl (by decide))).1
    { path := "/t/m", curr := { path := "/t/m", digest := "file:sha256:x" }
      prev := some { path := "/root/backups/cid/object", digest := "file:sha256:old" } }
    (by decide))

/-! ## C3 — unload of a modified managed file: force vs discardChanges -/

/-- C3: without force (and without discardChanges), removing a managed file
whose on-disk digest differs from the recorded `curr` digest fails with
"managed path was modified"; with `discardChanges` it succeeds and removes
the file; and `discardChanges` does not extend to the missing-object case,
which still fails. -/
theorem unload_discard_changes (managed : LockFile) (sys : Sys)
    (hpath : trimSpace managed.path = managed.path) (hne : managed.path ≠ "")
    (hclean : cleanPath managed.path = managed.path)
    (hdot : managed.path ≠ ".") (hroot : managed.path ≠ "/")
    (dcur : String)
    (hcur : digestOfPath sys.fs managed.path = some dcur)
    (exp act : Digest)
    (hexp : Digest.Parse managed.curr.digest = Except.ok exp)
    (hact : Digest.Parse dcur = Except.ok act)
    (hzero : exp.IsZero = false)
    (hmod : exp.toString ≠ act.toString) :
    removeManagedObjectOpts managed {} sys =
      (sys, Except.error ("managed path was modified: " ++ managed.path)) ∧
    ((removeManagedObjectOpts managed { discardChanges := true } sys).2 = Except.ok () ∧
      fsFind (removeManagedObjectOpts managed { discardChanges := true } sys).1.fs
        (resolveComps managed.path) = none) ∧
    (∀ sys₂ : Sys, digestOfPath sys₂.fs managed.path = none →
      removeManagedObjectOpts managed { discardChanges := true } sys₂ =
        (sys₂, Except.error ("managed path missing: " ++ managed.path))) := by
  refine ⟨?_, ?_, ?_⟩
  · unfold removeManagedObjectOpts
    simp only [hpath, if_neg hne, mBind_eq, snapshotObjectIfExists_some hcur, hexp, hact,
      mOfExcept_ok, mPure_eq]
    simp [hzero, hmod]
  · unfold removeManagedObjectOpts
    simp only [hpath, if_neg hne, mBind_eq, snapshotObjectIfExists_some hcur, hexp, hact,
      mOfExcept_ok, mPure_eq]
    simp only [show (true = false) = False from by simp, if_false, mBind_eq, mPure_eq]
    rw [if_neg (by
      intro habs
      rcases habs with ⟨-, habs, -⟩
      simp at habs)]
    have hfind : ∃ n, fsFind sys.fs (resolveComps managed.path) = some n := by
      unfold digestOfPath at hcur
      match hf : fsFind sys.fs (resolveComps managed.path) with
      | none => rw [hf] at hcur; simp at hcur
      | some n => exact ⟨n, rfl⟩
    obtain ⟨n, hfind⟩ := hfind
    have hrp : ∃ fs', removePath managed.path sys = ({ sys with fs := fs' }, Except.ok ()) ∧
        fsFind fs' (resolveComps managed.path) = none := by
      unfold removePath
      rw [hclean]
      rw [if_neg (by simp [hdot, hroot])]
      simp only [mBind_eq, getSys_eq, hfind]
      match n with
      | Node.dir =>
        exact ⟨_, rfl, fsFind_fsRemoveSubtree_self sys.fs (resolveComps managed.path)⟩
      | Node.file c =>
        exact ⟨_, rfl, fsFind_fsRemoveExact sys.fs (resolveComps managed.path)⟩
      | Node.symlink t =>
        exact ⟨_, rfl, fsFind_fsRemoveExact sys.fs (resolveComps managed.path)⟩
    obtain ⟨fs', hrp, hgone⟩ := hrp
    simp only [mBind_eq, mWrapErr_eq, hrp, emit_eq, mPure_eq]
    exact ⟨by simp, hgone⟩
  · intro sys₂ hmiss
    unfold removeManagedObjectOpts
    simp only [hpath, if_neg hne, mBind_eq, snapshotObjectIfExists_none hmiss, mPure_eq]
    simp

theorem unload_discard_changes_witness :
    removeManagedObjectOpts
        { path := "/t/m", curr := { path := "/t/m", digest := "file:sha256:old" }, prev := none }
        {}
        { fs := [(["t"], Node.dir), (["t", "m"], Node.file "new")]
          lockFile := DefaultLock, events := [] } =
      ({ fs := [(["t"], Node.dir), (["t", "m"], Node.file "new")]
         lockFile := DefaultLock, events := [] },
        Except.error ("managed path was modified: " ++ "/t/m")) :=
  (unload_discard_changes
    { path := "/t/m", curr := { path := "/t/m", digest := "file:sha256:old" }, prev := none }
    { fs := [(["t"], Node.dir), (["t", "m"], Node.file "new")]
      lockFile := DefaultLock, events := [] }
    (by decide) (by decide) (by decide) (by decide) (by decide)
    "file:sha256:new" (by decide)
    { kind := "file", algorithm := "sha256", sum := "old" }
    { kind := "file", algorithm := "sha256", sum := "new" }
    (by decide) (by decide) (by decide) (by decide)).1

/-! ## C5 — the unloaded checkpoint precedes all apply-phase events -/

theorem mWrapErr_fst {α : Type} (wrap : String → String) (x : M α) (s : Sys) :
    (mWrapErr wrap x s).1 = (x s).1 := by
  unfold mWrapErr
  match hx : x s with
  | (s', Except.ok a) => rfl
  | (s', Except.error e) => rfl

theorem mIgnoreErr_fst {α : Type} (x : M α) (s : Sys) :
    (mIgnoreErr x s).1 = (x s).1 := rfl

theorem mOfExcept_fst {α : Type} (x : Except String α) (wrap : String → String) (s : Sys) :
    (mOfExcept x wrap s).1 = s := by
  cases x <;> rfl

theorem loadLockM_eq (s : Sys) : loadLockM s = (s, Except.ok s.lockFile) := rfl

theorem snapshotObject_fst (path : String) (s : Sys) : ((snapshotObject path) s).1 = s := by
  unfold snapshotObject
  rw [mBind_eq, snapshotObjectIfExists_eq]
  cases digestOfPath s.fs path <;> simp

theorem extendsOp_of_evPres {α : Type} {x : M α} (h : ∀ s, ((x s).1).events = s.events) :
    ExtendsOp x :=
  fun s => ⟨[], by simp [h s]⟩

theorem nonApplyOp_of_evPres {α : Type} {x : M α} (h : ∀ s, ((x s).1).events = s.events) :
    NonApplyOp x :=
  fun s => ⟨[], by simp [h s]⟩

theorem nonApplyOp_pure {α : Type} (a : α) : NonApplyOp (pure a : M α) :=
  nonApplyOp_of_evPres (fun _ => rfl)

theorem nonApplyOp_throw {α : Type} (e : String) : NonApplyOp (mThrow e : M α) :=
  nonApplyOp_of_evPres (fun _ => rfl)

theorem extendsOp_pure {α : Type} (a : α) : ExtendsOp (pure a : M α) :=
  extendsOp_of_evPres (fun _ => rfl)

theorem extendsOp_throw {α : Type} (e : String) : ExtendsOp (mThrow e : M α) :=
  extendsOp_of_evPres (fun _ => rfl)

theorem extendsOp_emit (e : Event) : ExtendsOp (emit e) :=
  fun s => ⟨[e], rfl⟩

theorem nonApplyOp_emit {e : Event} (h : e.isApplyKind = false) : NonApplyOp (emit e) :=
  fun s => ⟨[e], rfl, by simpa⟩

theorem extendsOp_bind {α β : Type} {x : M α} {f : α → M β}
    (hx : ExtendsOp x) (hf : ∀ a, ExtendsOp (f a)) : ExtendsOp (x >>= f) := by
  intro s
  match hxs : x s with
  | (s1, Except.ok a) =>
    obtain ⟨Δ, hΔ⟩ := hx s
    rw [hxs] at hΔ
    obtain ⟨Δ2, hΔ2⟩ := hf a s1
    refine ⟨Δ ++ Δ2, ?_⟩
    rw [mBind_eq, hxs]
    dsimp only at hΔ ⊢
    rw [hΔ2, hΔ, List.append_assoc]
  | (s1, Except.error e) =>
    obtain ⟨Δ, hΔ⟩ := hx s
    rw [hxs] at hΔ
    refine ⟨Δ, ?_⟩
    rw [mBind_eq, hxs]
    exact hΔ

theorem nonApplyOp_bind {α β : Type} {x : M α} {f : α → M β}
    (hx : NonApplyOp x) (hf : ∀ a, NonApplyOp (f a)) : NonApplyOp (x >>= f) := by
  intro s
  match hxs : x s with
  | (s1, Except.ok a) =>
    obtain ⟨Δ, hΔ, hΔn⟩ := hx s
    rw [hxs] at hΔ
    obtain ⟨Δ2, hΔ2, hΔ2n⟩ := hf a s1
    refine ⟨Δ ++ Δ2, ?_, ?_⟩
    · rw [mBind_eq, hxs]
      dsimp only at hΔ ⊢
      rw [hΔ2, hΔ, List.append_assoc]
    · intro e he
      rcases List.mem_append.mp he with h | h
      · exact hΔn e h
      · exact hΔ2n e h
  | (s1, Except.error e) =>
    obtain ⟨Δ, hΔ, hΔn⟩ := hx s
    rw [hxs] at hΔ
    refine ⟨Δ, ?_, hΔn⟩
    rw [mBind_eq, hxs]
    exact hΔ

theorem extendsOp_ite {α : Type} (c : Prop) [Decidable c] {x y : M α}
    (hx : ExtendsOp x) (hy : ExtendsOp y) : ExtendsOp (if c then x else y) := by
  by_cases h : c
  · rw [if_pos h]; exact hx
  · rw [if_neg h]; exact hy

theorem nonApplyOp_ite {α : Type} (c : Prop) [Decidable c] {x y : M α}
    (hx : NonApplyOp x) (hy : NonApplyOp y) : NonApplyOp (if c then x else y) := by
  by_cases h : c
  · rw [if_pos h]; exact hx
  · rw [if_neg h]; exact hy

theorem extendsOp_wrapErr {α : Type} {wrap : String → String} {x : M α}
    (hx : ExtendsOp x) : ExtendsOp (mWrapErr wrap x) := by
  intro s
  obtain ⟨Δ, hΔ⟩ := hx s
  exact ⟨Δ, by rw [mWrapErr_fst]; exact hΔ⟩

theorem nonApplyOp_wrapErr {α : Type} {wrap : String → String} {x : M α}
    (hx : NonApplyOp x) : NonApplyOp (mWrapErr wrap x) := by
  intro s
  obtain ⟨Δ, hΔ, hn⟩ := hx s
  exact ⟨Δ, by rw [mWrapErr_fst]; exact hΔ, hn⟩

theorem extendsOp_ignoreErr {α : Type} {x : M α} (hx : ExtendsOp x) :
    ExtendsOp (mIgnoreErr x) := by
  intro s
  obtain ⟨Δ, hΔ⟩ := hx s
  exact ⟨Δ, by rw [mIgnoreErr_fst]; exact hΔ⟩

theorem extendsOp_mOfExcept {α : Type} (x : Except String α) (wrap : String → String) :
    ExtendsOp (mOfExcept x wrap) :=
  extendsOp_of_evPres (fun s => by rw [mOfExcept_fst])

theorem nonApplyOp_mOfExcept {α : Type} (x : Except String α) (wrap : String → String) :
    NonApplyOp (mOfExcept x wrap) :=
  nonApplyOp_of_evPres (fun s => by rw [mOfExcept_fst])

theorem removePath_evPres (path : String) (s : Sys) :
    ((removePath path) s).1.events = s.events := by
  obtain ⟨fs', r, h⟩ := removePath_shape path s
  rw [h]

theorem mkdirAllM_evPres (path : String) (s : Sys) :
    ((mkdirAllM path) s).1.events = s.events := by
  obtain ⟨fs', r, h⟩ := mkdirAllM_shape path s
  rw [h]

theorem copyFileM_evPres (src dest : String) (s : Sys) :
    ((copyFileM src dest) s).1.events = s.events := by
  obtain ⟨fs', r, h⟩ := copyFileM_shape src dest s
  rw [h]

theorem symlinkM_evPres (target dest : String) (s : Sys) :
    ((symlinkM target dest) s).1.events = s.events := by
  obtain ⟨fs', r, h⟩ := symlinkM_shape target dest s
  rw [h]

theorem copyPathM_evPres (src dest : String) (s : Sys) :
    ((copyPathM src dest) s).1.events = s.events := by
  obtain ⟨fs', r, h⟩ := copyPathM_shape src dest s
  rw [h]

theorem snapshotObjectIfExists_evPres (path : String) (s : Sys) :
    ((snapshotObjectIfExists path) s).1.events = s.events := by
  rw [snapshotObjectIfExists_eq]

theorem nonApplyOp_loadLockM : NonApplyOp loadLockM :=
  nonApplyOp_of_evPres (fun s => by rw [loadLockM_eq])

theorem nonApplyOp_removeManagedObject (managed : LockFile) (force : Bool) :
    NonApplyOp (removeManagedObject managed force) := by
  unfold removeManagedObject
  dsimp only
  apply nonApplyOp_ite
  · exact nonApplyOp_pure ()
  · apply nonApplyOp_bind (nonApplyOp_of_evPres (snapshotObjectIfExists_evPres _))
    rintro ⟨current, present⟩
    dsimp only
    apply nonApplyOp_ite
    · exact nonApplyOp_ite _ (nonApplyOp_pure ()) (nonApplyOp_throw _)
    · apply nonApplyOp_bind (nonApplyOp_mOfExcept _ _)
      intro expected
      dsimp only
      apply nonApplyOp_bind (nonApplyOp_mOfExcept _ _)
      intro actual
      dsimp only
      apply nonApplyOp_ite
      · exact nonApplyOp_throw _
      · apply nonApplyOp_bind (nonApplyOp_wrapErr (nonApplyOp_of_evPres (removePath_evPres _)))
        intro u
        exact nonApplyOp_emit rfl

theorem nonApplyOp_restoreBackupObject (st : GoStore) (prev : Option Obj)
    (destination : String) (force : Bool) :
    NonApplyOp (restoreBackupObject st prev destination force) := by
  unfold restoreBackupObject
  cases prev with
  | none => exact nonApplyOp_pure ()
  | some prevObj =>
    dsimp only
    apply nonApplyOp_bind
    · apply nonApplyOp_ite
      · apply nonApplyOp_bind (nonApplyOp_mOfExcept _ _)
        intro d
        dsimp only
        exact nonApplyOp_ite _ (nonApplyOp_pure _) (nonApplyOp_pure _)
      · exact nonApplyOp_pure _
    · intro bp?
      cases bp? with
      | none => exact nonApplyOp_pure ()
      | some backupPath =>
        dsimp only
        apply nonApplyOp_bind (nonApplyOp_of_evPres (snapshotObjectIfExists_evPres _))
        rintro ⟨backup, present⟩
        dsimp only
        apply nonApplyOp_ite
        · exact nonApplyOp_ite _ (nonApplyOp_pure ()) (nonApplyOp_throw _)
        · apply nonApplyOp_ite
          · exact nonApplyOp_throw _
          · apply nonApplyOp_bind (nonApplyOp_of_evPres (snapshotObjectIfExists_evPres _))
            rintro ⟨x, destPresent⟩
            dsimp only
            apply nonApplyOp_ite
            · apply nonApplyOp_ite
              · apply nonApplyOp_bind (nonApplyOp_throw _)
                intro u
                apply nonApplyOp_bind
                  (nonApplyOp_wrapErr (nonApplyOp_of_evPres (copyPathM_evPres _ _)))
                intro u2
                exact nonApplyOp_emit rfl
              · apply nonApplyOp_bind
                  (nonApplyOp_wrapErr (nonApplyOp_of_evPres (removePath_evPres _)))
                intro u
                apply nonApplyOp_bind (@nonApplyOp_emit (Event.remove destination) rfl)
                intro u2
                apply nonApplyOp_bind
                  (nonApplyOp_wrapErr (nonApplyOp_of_evPres (copyPathM_evPres _ _)))
                intro u3
                exact nonApplyOp_emit rfl
            · apply nonApplyOp_bind (nonApplyOp_pure ())
              intro u
              apply nonApplyOp_bind
                (nonApplyOp_wrapErr (nonApplyOp_of_evPres (copyPathM_evPres _ _)))
              intro u2
              exact nonApplyOp_emit rfl

theorem nonApplyOp_unloadStep (st : GoStore) (occupied : List String) (force : Bool)
    (managed : LockFile) : NonApplyOp (unloadStep st occupied force managed) := by
  unfold unloadStep
  apply nonApplyOp_bind (nonApplyOp_removeManagedObject _ _)
  intro u
  cases hprev : managed.prev with
  | none => exact nonApplyOp_pure ()
  | some prevObj =>
    dsimp only
    apply nonApplyOp_ite
    · exact nonApplyOp_ite _ (nonApplyOp_pure ()) (nonApplyOp_restoreBackupObject _ _ _ _)
    · exact nonApplyOp_pure ()

theorem nonApplyOp_unloadLoop (st : GoStore) (occupied : List String) (force : Bool) :
    ∀ l : List LockFile, NonApplyOp (unloadLoop st occupied force l) := by
  intro l
  induction l with
  | nil => exact nonApplyOp_pure ()
  | cons f rest ih =>
    unfold unloadLoop
    exact nonApplyOp_bind (nonApplyOp_unloadStep _ _ _ _) (fun _ => ih)

theorem nonApplyOp_unloadManagedPaths (st : GoStore) (files : List LockFile)
    (occupied : List String) (force : Bool) :
    NonApplyOp (unloadManagedPaths st files occupied force) :=
  nonApplyOp_unloadLoop st occupied force (orderManagedFilesForRemoval files)

theorem nonApplyOp_cleanupStep (d : LockDir) : NonApplyOp (cleanupStep d) := by
  intro s
  unfold cleanupStep
  dsimp only
  by_cases h1 : trimSpace d.path = ""
  · rw [if_pos h1, mPure_eq]
    exact ⟨[], by simp, by simp⟩
  · rw [if_neg h1]
    by_cases h2 : cleanPath (trimSpace d.path) = "." ∨ cleanPath (trimSpace d.path) = "/"
    · rw [if_pos h2, mPure_eq]
      exact ⟨[], by simp, by simp⟩
    · rw [if_neg h2]
      rw [mBind_eq, getSys_eq]
      dsimp only
      match hf : fsFind s.fs (resolveComps (cleanPath (trimSpace d.path))) with
      | none => exact ⟨[], by simp, by simp⟩
      | some (Node.file c) => exact ⟨[], by simp, by simp⟩
      | some (Node.symlink t) => exact ⟨[], by simp, by simp⟩
      | some Node.dir =>
        dsimp only
        by_cases h3 : (s.fs.filter (fun kn =>
            isKeyPrefix (resolveComps (cleanPath (trimSpace d.path))) kn.1 &&
              decide (kn.1 ≠ resolveComps (cleanPath (trimSpace d.path))))).isEmpty = true
        · rw [if_pos h3]
          refine ⟨[Event.remove (cleanPath (trimSpace d.path))], ?_, by simp [Event.isApplyKind]⟩
          simp [mBind_eq, setSys_eq, emit_eq]
        · rw [if_neg h3, mPure_eq]
          exact ⟨[], by simp, by simp⟩

theorem nonApplyOp_cleanupLoop : ∀ l : List LockDir, NonApplyOp (cleanupLoop l) := by
  intro l
  induction l with
  | nil => exact nonApplyOp_pure ()
  | cons d rest ih =>
    unfold cleanupLoop
    exact nonApplyOp_bind (nonApplyOp_cleanupStep _) (fun _ => ih)

theorem nonApplyOp_cleanupTrackedAutoDirs (dirs : List LockDir) :
    NonApplyOp (cleanupTrackedAutoDirs dirs) :=
  nonApplyOp_cleanupLoop (orderDirsForRemoval dirs)

theorem saveLockM_events (lck : Lock) (s : Sys) :
    ∃ lck', saveLockM lck s =
      ({ s with lockFile := lck', events := s.events ++ [Event.writeLock lck'] },
        Except.ok ()) := by
  unfold saveLockM
  exact ⟨_, rfl⟩

theorem saveLockM_default (s : Sys) :
    saveLockM DefaultLock s =
      ({ s with lockFile := DefaultLock, events := s.events ++ [Event.writeLock DefaultLock] },
        Except.ok ()) := by
  unfold saveLockM DefaultLock
  simp

theorem extendsOp_saveLockM (lck : Lock) : ExtendsOp (saveLockM lck) := by
  intro s
  obtain ⟨lck', h⟩ := saveLockM_events lck s
  exact ⟨[Event.writeLock lck'], by rw [h]⟩

theorem ckptOp_of_nonApply {α : Type} {x : M α} (h : NonApplyOp x) : CkptOp x := by
  intro s
  obtain ⟨Δ, h1, h2⟩ := h s
  exact ⟨Δ, h1, Or.inl h2⟩

theorem ckptOp_bind_nonApply {α β : Type} {x : M α} {f : α → M β}
    (hx : NonApplyOp x) (hf : ∀ a, CkptOp (f a)) : CkptOp (x >>= f) := by
  intro s
  match hxs : x s with
  | (s1, Except.ok a) =>
    obtain ⟨Δ, hΔ, hΔn⟩ := hx s
    rw [hxs] at hΔ
    obtain ⟨Δ2, hΔ2, hc⟩ := hf a s1
    refine ⟨Δ ++ Δ2, ?_, ?_⟩
    · rw [mBind_eq, hxs]
      dsimp only at hΔ ⊢
      rw [hΔ2, hΔ, List.append_assoc]
    · rcases hc with hc | ⟨Δ₁, Δ₂, hdec, hn⟩
      · refine Or.inl ?_
        intro e he
        rcases List.mem_append.mp he with h | h
        · exact hΔn e h
        · exact hc e h
      · refine Or.inr ⟨Δ ++ Δ₁, Δ₂, by rw [hdec, List.append_assoc], ?_⟩
        intro e he
        rcases List.mem_append.mp he with h | h
        · exact hΔn e h
        · exact hn e h
  | (s1, Except.error e) =>
    obtain ⟨Δ, hΔ, hΔn⟩ := hx s
    rw [hxs] at hΔ
    exact ⟨Δ, by rw [mBind_eq, hxs]; exact hΔ, Or.inl hΔn⟩

theorem ckptOp_saveDefault_bind {β : Type} {f : Unit → M β} (hf : ∀ u, ExtendsOp (f u)) :
    CkptOp (saveLockM DefaultLock >>= f) := by
  intro s
  obtain ⟨Δ2, hΔ2⟩ := hf ()
    ({ s with lockFile := DefaultLock, events := s.events ++ [Event.writeLock DefaultLock] })
  refine ⟨Event.writeLock DefaultLock :: Δ2, ?_, Or.inr ⟨[], Δ2, by simp, by simp⟩⟩
  rw [mBind_eq, saveLockM_default]
  dsimp only
  rw [hΔ2]
  simp

theorem forM_emit_map {κ : Type} (g : κ → Event) : ∀ (l : List κ) (s : Sys),
    (List.forM l (fun k => emit (g k))) s =
      ({ s with events := s.events ++ l.map g }, Except.ok ()) := by
  intro l
  induction l with
  | nil => intro s; simp [List.forM]
  | cons a rest ih =>
    intro s
    simp only [List.forM, mBind_eq, emit_eq, ih, List.map_cons]
    simp [List.append_assoc]

theorem extendsOp_ensureParentDirs (path : String) : ExtendsOp (ensureParentDirs path) := by
  intro s
  unfold ensureParentDirs
  dsimp only
  by_cases h1 : (resolveComps path).dropLast = []
  · rw [if_pos h1, mPure_eq]
    exact ⟨[], by simp⟩
  · rw [if_neg h1]
    rw [mBind_eq, getSys_eq]
    dsimp only
    match hm : collectMissingParents s.fs (resolveComps path).dropLast with
    | Except.error e =>
      rw [mOfExcept_error]
      refine ⟨[], ?_⟩
      simp [mBind_eq, mThrow_eq]
    | Except.ok missing =>
      rw [mOfExcept_ok]
      refine ⟨missing.reverse.map (fun key => Event.mkdir (compsToAbs key)), ?_⟩
      simp [mBind_eq, mPure_eq, setSys_eq, forM_emit_map]

theorem extendsOp_snapshotObject (path : String) : ExtendsOp (snapshotObject path) :=
  extendsOp_of_evPres (fun s => by rw [snapshotObject_fst])

theorem extendsOp_cleanLoopBackups (st : GoStore) (referenced : List String) :
    ∀ (cids : List String) (removed : Nat),
      ExtendsOp (cleanLoopBackups st referenced cids removed) := by
  intro cids
  induction cids with
  | nil => intro removed; exact extendsOp_pure _
  | cons cid rest ih =>
    intro removed
    unfold cleanLoopBackups
    apply extendsOp_ite
    · exact ih removed
    · apply extendsOp_bind (extendsOp_wrapErr (extendsOp_of_evPres (removePath_evPres _)))
      intro u
      apply extendsOp_bind (extendsOp_emit _)
      intro u2
      exact ih (removed + 1)

theorem extendsOp_cleanBackupStore (st : GoStore) (tracked : List LockFile) :
    ExtendsOp (cleanBackupStore st tracked) := by
  unfold cleanBackupStore
  apply extendsOp_bind (extendsOp_mOfExcept _ _)
  intro referenced
  dsimp only
  apply extendsOp_bind (extendsOp_of_evPres (fun s => by rw [getSys_eq]))
  intro sys
  dsimp only
  cases hf : fsFind sys.fs (resolveComps (backupsPath st)) with
  | none => exact extendsOp_pure _
  | some n =>
    cases n with
    | dir => exact extendsOp_cleanLoopBackups _ _ _ _
    | file c => exact extendsOp_throw _
    | symlink t => exact extendsOp_throw _

theorem extendsOp_persistBackupObject (st : GoStore) (object : Obj) :
    ExtendsOp (persistBackupObject st object) := by
  unfold persistBackupObject
  apply extendsOp_bind (extendsOp_mOfExcept _ _)
  intro d
  dsimp only
  apply extendsOp_ite
  · exact extendsOp_throw _
  · apply extendsOp_bind (extendsOp_of_evPres (snapshotObjectIfExists_evPres _))
    rintro ⟨existingBackup, present⟩
    dsimp only
    apply extendsOp_ite
    · exact extendsOp_ite _ (extendsOp_throw _) (extendsOp_pure _)
    · apply extendsOp_bind (extendsOp_of_evPres (mkdirAllM_evPres _))
      intro u
      apply extendsOp_bind (extendsOp_wrapErr (extendsOp_of_evPres (copyPathM_evPres _ _)))
      intro u2
      apply extendsOp_bind (extendsOp_emit _)
      intro u3
      apply extendsOp_bind (extendsOp_wrapErr (extendsOp_snapshotObject _))
      intro written
      dsimp only
      apply extendsOp_ite
      · apply extendsOp_bind (extendsOp_ignoreErr (extendsOp_of_evPres (removePath_evPres _)))
        intro u4
        exact extendsOp_throw _
      · exact extendsOp_pure _

theorem extendsOp_prepareDestinationForApply (st : GoStore) (cfg : Config) (op : ManifestOp)
    (prev : Option Obj) (force : Bool) :
    ExtendsOp (prepareDestinationForApply st cfg op prev force) := by
  unfold prepareDestinationForApply
  apply extendsOp_bind (extendsOp_of_evPres (snapshotObjectIfExists_evPres _))
  rintro ⟨current, present⟩
  dsimp only
  apply extendsOp_ite
  · exact extendsOp_pure _
  · apply extendsOp_ite
    · apply extendsOp_ite
      · exact extendsOp_throw _
      · apply extendsOp_bind (extendsOp_of_evPres (removePath_evPres _))
        intro u
        apply extendsOp_bind (extendsOp_emit _)
        intro u2
        exact extendsOp_pure _
    · apply extendsOp_ite
      · apply extendsOp_bind (extendsOp_persistBackupObject _ _)
        intro storedPrev
        dsimp only
        apply extendsOp_bind (extendsOp_of_evPres (removePath_evPres _))
        intro u
        apply extendsOp_bind (extendsOp_emit _)
        intro u2
        exact extendsOp_pure _
      · apply extendsOp_ite
        · exact extendsOp_ite _ (extendsOp_throw _) (extendsOp_throw _)
        · apply extendsOp_bind (extendsOp_of_evPres (removePath_evPres _))
          intro u
          apply extendsOp_bind (extendsOp_emit _)
          intro u2
          exact extendsOp_pure _

theorem extendsOp_applyLoop (st : GoStore) (cfg : Config)
    (oldByPath : List (String × LockFile)) (force : Bool) :
    ∀ (ops : List ManifestOp) (tracked : List LockFile) (autoDirs : List String),
      ExtendsOp (applyLoop st cfg oldByPath force ops tracked autoDirs) := by
  intro ops
  induction ops with
  | nil => intro tracked autoDirs; exact extendsOp_pure _
  | cons op rest ih =>
    intro tracked autoDirs
    unfold applyLoop
    dsimp only
    apply extendsOp_bind
      (extendsOp_wrapErr (extendsOp_prepareDestinationForApply _ _ _ _ _))
    intro prevAfterPrepare
    dsimp only
    apply extendsOp_bind (extendsOp_ensureParentDirs _)
    intro createdParents
    dsimp only
    apply extendsOp_bind
    · cases op.kind with
      | link =>
        apply extendsOp_bind (extendsOp_wrapErr (extendsOp_of_evPres (symlinkM_evPres _ _)))
        intro u
        exact extendsOp_emit _
      | file =>
        apply extendsOp_bind (extendsOp_of_evPres (copyFileM_evPres _ _))
        intro u
        exact extendsOp_emit _
      | dir =>
        apply extendsOp_bind (extendsOp_wrapErr (extendsOp_of_evPres (mkdirAllM_evPres _)))
        intro u
        exact extendsOp_emit _
    · intro u
      apply extendsOp_ite
      · exact ih _ _
      · apply extendsOp_bind (extendsOp_wrapErr (extendsOp_snapshotObject _))
        intro curr
        exact ih _ _

theorem extendsOp_applyManifestOps (st : GoStore) (cfg : Config) (ops : List ManifestOp)
    (oldByPath : List (String × LockFile)) (force : Bool) :
    ExtendsOp (applyManifestOps st cfg ops oldByPath force) := by
  unfold applyManifestOps
  apply extendsOp_bind (extendsOp_applyLoop _ _ _ _ _ _ _)
  rintro ⟨tracked, autoDirSet⟩
  dsimp only
  exact extendsOp_pure _

theorem ckptOp_switchWithConfig (st : GoStore) (cfg : Config) (mName sourceDir : String)
    (ops : List ManifestOp) (force : Bool) :
    CkptOp (switchWithConfig st cfg mName sourceDir ops force) := by
  unfold switchWithConfig
  apply ckptOp_bind_nonApply nonApplyOp_loadLockM
  intro oldLock
  dsimp only
  apply ckptOp_bind_nonApply (nonApplyOp_unloadManagedPaths _ _ _ _)
  intro u1
  apply ckptOp_bind_nonApply (nonApplyOp_cleanupTrackedAutoDirs _)
  intro u2
  apply ckptOp_saveDefault_bind
  intro u3
  apply extendsOp_bind (extendsOp_applyManifestOps _ _ _ _ _)
  rintro ⟨tracked, autoDirs⟩
  dsimp only
  apply extendsOp_bind (extendsOp_saveLockM _)
  intro u4
  apply extendsOp_bind (extendsOp_ite _ (extendsOp_cleanBackupStore _ _) (extendsOp_pure _))
  intro removedBackups
  exact extendsOp_pure _

/-- C5: during `Load` (`switchWithConfig`), the transitional unloaded
LockState write is persisted strictly before any operation of the new
source is applied: in any run's event trace, either no apply-phase event
(symlink / file copy / directory creation) occurs at all, or the trace
splits at a `writeLock DefaultLock` checkpoint with every apply-phase
event strictly after it. -/
theorem unloaded_checkpoint_precedes_apply (st : GoStore) (cfg : Config)
    (mName sourceDir : String) (ops : List ManifestOp) (force : Bool)
    (sys sys' : Sys) (r : Except String LoadResult)
    (hev : sys.events = [])
    (hrun : switchWithConfig st cfg mName sourceDir ops force sys = (sys', r)) :
    (∀ e ∈ sys'.events, e.isApplyKind = false) ∨
    ∃ Δ₁ Δ₂, sys'.events = Δ₁ ++ Event.writeLock DefaultLock :: Δ₂ ∧
      ∀ e ∈ Δ₁, e.isApplyKind = false := by
  obtain ⟨Δ, hΔ, hc⟩ := ckptOp_switchWithConfig st cfg mName sourceDir ops force sys
  rw [hrun] at hΔ
  dsimp only at hΔ
  rw [hev] at hΔ
  simp only [List.nil_append] at hΔ
  rcases hc with hc | ⟨Δ₁, Δ₂, hdec, hn⟩
  · refine Or.inl ?_
    rw [hΔ]
    exact hc
  · exact Or.inr ⟨Δ₁, Δ₂, by rw [hΔ, hdec], hn⟩

theorem unloaded_checkpoint_precedes_apply_witness :
    (∀ e ∈ (switchWithConfig { root := "/r" } { backup := false, clean := false } "nm" "/src"
        [{ kind := OpKind.link, source := "/src/a", dest := "/t/a", track := false }] false
        { fs := [(["t"], Node.dir)], lockFile := DefaultLock, events := [] }).1.events,
          e.isApplyKind = false) ∨
    ∃ Δ₁ Δ₂, (switchWithConfig { root := "/r" } { backup := false, clean := false } "nm" "/src"
        [{ kind := OpKind.link, source := "/src/a", dest := "/t/a", track := false }] false
        { fs := [(["t"], Node.dir)], lockFile := DefaultLock, events := [] }).1.events =
          Δ₁ ++ Event.writeLock DefaultLock :: Δ₂ ∧
      ∀ e ∈ Δ₁, e.isApplyKind = false :=
  unloaded_checkpoint_precedes_apply { root := "/r" } { backup := false, clean := false }
    "nm" "/src" [{ kind := OpKind.link, source := "/src/a", dest := "/t/a", track := false }]
    false { fs := [(["t"], Node.dir)], lockFile := DefaultLock, events := [] }
    (switchWithConfig { root := "/r" } { backup := false, clean := false } "nm" "/src"
        [{ kind := OpKind.link, source := "/src/a", dest := "/t/a", track := false }] false
        { fs := [(["t"], Node.dir)], lockFile := DefaultLock, events := [] }).1
    (switchWithConfig { root := "/r" } { backup := false, clean := false } "nm" "/src"
        [{ kind := OpKind.link, source := "/src/a", dest := "/t/a", track := false }] false
        { fs := [(["t"], Node.dir)], lockFile := DefaultLock, events := [] }).2
    rfl rfl

/-! ## C6 — Tidy removes exactly the unreferenced backup entries -/

theorem fsFind_fsRemoveExact_other (fs : FS) (key key' : FsKey) (h : key' ≠ key) :
    fsFind (fsRemoveExact fs key) key' = fsFind fs key' := by
  induction fs with
  | nil => rfl
  | cons kn rest ih =>
    obtain ⟨k, n⟩ := kn
    by_cases hk : k = key
    · rw [show fsRemoveExact ((k, n) :: rest) key = fsRemoveExact rest key from by
        simp [fsRemoveExact, List.filter_cons, hk]]
      rw [ih]
      rw [show fsFind ((k, n) :: rest) key' = fsFind rest key' from by
        simp [fsFind, show ¬(k = key') from fun habs => h (habs ▸ hk ▸ rfl)]]
    · rw [show fsRemoveExact ((k, n) :: rest) key = (k, n) :: fsRemoveExact rest key from by
        simp [fsRemoveExact, List.filter_cons, hk]]
      by_cases hk' : k = key'
      · simp [fsFind, hk']
      · simp [fsFind, hk', ih]

theorem joinWithSlash_append_singleton :
    ∀ (xs : List (List Char)) (y : List Char), xs ≠ [] →
      joinWithSlash (xs ++ [y]) = joinWithSlash xs ++ '/' :: y := by
  intro xs
  induction xs with
  | nil => intro y h; contradiction
  | cons a rest ih =>
    intro y h
    cases rest with
    | nil => simp [joinWithSlash]
    | cons b rest' =>
      have h1 : joinWithSlash ((a :: b :: rest') ++ [y]) =
          a ++ '/' :: joinWithSlash ((b :: rest') ++ [y]) := rfl
      have h2 : joinWithSlash (a :: b :: rest') =
          a ++ '/' :: joinWithSlash (b :: rest') := rfl
      rw [h1, h2, ih y (by simp)]
      simp

theorem compsToAbs_append_singleton (comps : List String) (c : String) (h : comps ≠ []) :
    compsToAbs (comps ++ [c]) = compsToAbs comps ++ "/" ++ c := by
  have hdata : (compsToAbs (comps ++ [c])).data = (compsToAbs comps ++ "/" ++ c).data := by
    rw [compsToAbs_data]
    simp only [String.data_append, compsToAbs_data]
    rw [List.map_append]
    rw [show List.map String.data [c] = [c.data] from rfl]
    rw [joinWithSlash_append_singleton (comps.map String.data) c.data (by simpa using h)]
    simp
  have := congrArg String.mk hdata
  rwa [strMk_data, strMk_data] at this

theorem compsToAbs_ne_slash (comps : List String) (h : ∀ c ∈ comps, normalComp c)
    (hne : comps ≠ []) : compsToAbs comps ≠ "/" := by
  cases comps with
  | nil => contradiction
  | cons c rest =>
    intro habs
    have hd := congrArg String.data habs
    rw [compsToAbs_data] at hd
    simp only [List.map_cons] at hd
    have hd2 : joinWithSlash (c.data :: rest.map String.data) = [] := by
      have := congrArg List.tail hd
      simpa using this
    cases rest with
    | nil =>
      rw [show joinWithSlash (c.data :: List.map String.data []) = c.data from rfl] at hd2
      refine (h c (by simp)).1 ?_
      cases c
      rw [show ("" : String) = String.mk [] from rfl]
      exact congrArg String.mk (by simpa using hd2)
    | cons b r =>
      rw [show joinWithSlash (c.data :: List.map String.data (b :: r)) =
        c.data ++ '/' :: joinWithSlash (List.map String.data (b :: r)) from rfl] at hd2
      simp at hd2

theorem isKeyPrefix_append_same :
    ∀ (k : FsKey) (a b : String), isKeyPrefix (k ++ [a]) (k ++ [b]) = true → a = b := by
  intro k
  induction k with
  | nil =>
    intro a b h
    simp [isKeyPrefix] at h
    exact h
  | cons x xs ih =>
    intro a b h
    rw [show (x :: xs) ++ [a] = x :: (xs ++ [a]) from rfl,
      show (x :: xs) ++ [b] = x :: (xs ++ [b]) from rfl, isKeyPrefix] at h
    simp at h
    exact ih a b h

theorem removePath_canonical_effect (k : FsKey) (hk : k ≠ [])
    (hnorm : ∀ c ∈ k, normalComp c) (s : Sys) :
    ∃ fs₁, removePath (compsToAbs k) s = ({ s with fs := fs₁ }, Except.ok ()) ∧
      (∀ key, isKeyPrefix k key = false → fsFind fs₁ key = fsFind s.fs key) ∧
      fsFind fs₁ k = none := by
  unfold removePath
  rw [cleanPath_compsToAbs k hnorm]
  rw [if_neg (by
    rintro (h | h)
    · exact compsToAbs_ne_dot k h
    · exact compsToAbs_ne_slash k hnorm hk h)]
  simp only [mBind_eq, getSys_eq]
  rw [resolveComps_compsToAbs k hnorm]
  match hf : fsFind s.fs k with
  | none =>
    refine ⟨s.fs, by simp, fun key _ => rfl, hf⟩
  | some Node.dir =>
    refine ⟨fsRemoveSubtree s.fs k, rfl, ?_, fsFind_fsRemoveSubtree_self s.fs k⟩
    intro key hkey
    rw [fsFind_fsRemoveSubtree, if_neg (by simp [hkey])]
  | some (Node.file c) =>
    refine ⟨fsRemoveExact s.fs k, rfl, ?_, fsFind_fsRemoveExact s.fs k⟩
    intro key hkey
    refine fsFind_fsRemoveExact_other s.fs k key (fun habs => ?_)
    rw [habs, isKeyPrefix_refl] at hkey
    exact absurd hkey (by simp)
  | some (Node.symlink t) =>
    refine ⟨fsRemoveExact s.fs k, rfl, ?_, fsFind_fsRemoveExact s.fs k⟩
    intro key hkey
    refine fsFind_fsRemoveExact_other s.fs k key (fun habs => ?_)
    rw [habs, isKeyPrefix_refl] at hkey
    exact absurd hkey (by simp)

theorem cleanLoop_effect (st : GoStore) (refs : List String) (bkey : FsKey)
    (hb : backupsPath st = compsToAbs bkey) (hbne : bkey ≠ [])
    (hbnorm : ∀ c ∈ bkey, normalComp c) :
    ∀ (cids : List String), (∀ c ∈ cids, normalComp c) → ∀ (removed : Nat) (s : Sys),
    ∃ s', cleanLoopBackups st refs cids removed s =
        (s', Except.ok (removed + (cids.filter (fun c => decide (c ∉ refs))).length)) ∧
      (∀ key, (∀ c ∈ cids, c ∉ refs → isKeyPrefix (bkey ++ [c]) key = false) →
        fsFind s'.fs key = fsFind s.fs key) ∧
      (∀ c ∈ cids, c ∉ refs → fsFind s'.fs (bkey ++ [c]) = none) := by
  intro cids
  induction cids with
  | nil =>
    intro hnorm removed s
    refine ⟨s, by simp [cleanLoopBackups], fun key _ => rfl, by simp⟩
  | cons cid rest ih =>
    intro hnorm removed s
    have hrestnorm : ∀ c ∈ rest, normalComp c :=
      fun c hc => hnorm c (List.mem_cons_of_mem cid hc)
    by_cases hmem : cid ∈ refs
    · obtain ⟨s', hloop, hpres, hgone⟩ := ih hrestnorm removed s
      refine ⟨s', ?_, ?_, ?_⟩
      · unfold cleanLoopBackups
        rw [if_pos hmem]
        rw [show (List.filter (fun c => decide (c ∉ refs)) (cid :: rest)) =
          List.filter (fun c => decide (c ∉ refs)) rest from by
            simp [List.filter_cons, hmem]]
        exact hloop
      · intro key hkey
        exact hpres key (fun c hc => hkey c (List.mem_cons_of_mem cid hc))
      · intro c hc hcref
        rcases List.mem_cons.mp hc with hceq | hcr
        · exact absurd hmem (hceq ▸ hcref)
        · exact hgone c hcr hcref
    · have hP : backupsPath st ++ "/" ++ cid = compsToAbs (bkey ++ [cid]) := by
        rw [compsToAbs_append_singleton bkey cid hbne, hb]
      have hknorm : ∀ c ∈ bkey ++ [cid], normalComp c := by
        intro c hc
        rcases List.mem_append.mp hc with h | h
        · exact hbnorm c h
        · rw [List.mem_singleton.mp h]
          exact hnorm cid (List.mem_cons_self cid rest)
      obtain ⟨fs₁, hrp, hpres1, hgone1⟩ :=
        removePath_canonical_effect (bkey ++ [cid]) (by simp) hknorm s
      obtain ⟨s', hloop, hpres2, hgone2⟩ := ih hrestnorm (removed + 1)
        ({ s with
           fs := fs₁
           events := s.events ++ [Event.remove (compsToAbs (bkey ++ [cid]))] })
      refine ⟨s', ?_, ?_, ?_⟩
      · unfold cleanLoopBackups
        rw [if_neg hmem]
        simp only [mBind_eq, mWrapErr_eq]
        rw [hP, hrp]
        dsimp only
        rw [emit_eq]
        dsimp only
        rw [show (List.filter (fun c => decide (c ∉ refs)) (cid :: rest)) =
          cid :: List.filter (fun c => decide (c ∉ refs)) rest from by
            simp [List.filter_cons, hmem]]
        rw [show removed + (cid :: List.filter (fun c => decide (c ∉ refs)) rest).length =
          (removed + 1) + (List.filter (fun c => decide (c ∉ refs)) rest).length from by
            simp
            omega]
        exact hloop
      · intro key hkey
        rw [hpres2 key (fun c hc hcref => hkey c (List.mem_cons_of_mem cid hc) hcref)]
        exact hpres1 key (hkey cid (List.mem_cons_self cid rest) hmem)
      · intro c hc hcref
        rcases List.mem_cons.mp hc with hceq | hcr
        · subst hceq
          by_cases hcov : ∀ c' ∈ rest, c' ∉ refs →
              isKeyPrefix (bkey ++ [c']) (bkey ++ [c]) = false
          · rw [hpres2 _ hcov]
            exact hgone1
          · push_neg at hcov
            obtain ⟨c', hc', hcref', hpre⟩ := hcov
            have htrue : isKeyPrefix (bkey ++ [c']) (bkey ++ [c]) = true := by
              revert hpre
              cases isKeyPrefix (bkey ++ [c']) (bkey ++ [c]) <;> simp
            have hceq' := isKeyPrefix_append_same bkey c' c htrue
            rw [← hceq']
            exact hgone2 c' hc' hcref'
        · exact hgone2 c hcr hcref

theorem cleanBackupStore_run (st : GoStore) (files : List LockFile) (bkey : FsKey)
    (refs : List String) (sys : Sys)
    (hb : backupsPath st = compsToAbs bkey) (hbnorm : ∀ c ∈ bkey, normalComp c)
    (hrefs : referencedDigests files = Except.ok refs)
    (hdir : fsFind sys.fs bkey = some Node.dir) :
    cleanBackupStore st files sys =
      cleanLoopBackups st refs (childNames sys.fs bkey) 0 sys := by
  unfold cleanBackupStore
  simp only [mBind_eq]
  rw [hrefs, mOfExcept_ok, mPure_eq]
  dsimp only
  rw [getSys_eq]
  dsimp only
  rw [hb, resolveComps_compsToAbs bkey hbnorm, hdir]

/-- C6: `Tidy` removes exactly the backup-store entries whose digest key is
not referenced by any current ManagedEntry's `prev` digest: its removed
count equals the number of unreferenced children of the backups directory,
every key outside the removed children's subtrees (in particular every
referenced backup object) is untouched, and every unreferenced child entry
is gone. -/
theorem tidy_removes_exactly_unreferenced (st : GoStore) (bkey : FsKey)
    (sys sys' : Sys) (res : TidyResult) (refs : List String)
    (hb : backupsPath st = compsToAbs bkey) (hbne : bkey ≠ [])
    (hbnorm : ∀ c ∈ bkey, normalComp c)
    (hrefs : referencedDigests sys.lockFile.files = Except.ok refs)
    (hdir : fsFind sys.fs bkey = some Node.dir)
    (hcnorm : ∀ c ∈ childNames sys.fs bkey, normalComp c)
    (hrun : Tidy st sys = (sys', Except.ok res)) :
    res.removedCount =
      ((childNames sys.fs bkey).filter (fun c => decide (c ∉ refs))).length ∧
    (∀ key, (∀ c ∈ childNames sys.fs bkey, c ∉ refs →
        isKeyPrefix (bkey ++ [c]) key = false) →
      fsFind sys'.fs key = fsFind sys.fs key) ∧
    (∀ c ∈ childNames sys.fs bkey, c ∉ refs → fsFind sys'.fs (bkey ++ [c]) = none) := by
  obtain ⟨s1, hloop, hpres, hgone⟩ := cleanLoop_effect st refs bkey hb hbne hbnorm
    (childNames sys.fs bkey) hcnorm 0 sys
  unfold Tidy at hrun
  rw [mBind_eq, loadLockM_eq] at hrun
  dsimp only at hrun
  rw [mBind_eq] at hrun
  rw [cleanBackupStore_run st sys.lockFile.files bkey refs sys hb hbnorm hrefs hdir] at hrun
  rw [hloop] at hrun
  dsimp only at hrun
  rw [mPure_eq] at hrun
  obtain ⟨h1, h2⟩ := Prod.mk.injEq .. ▸ hrun
  simp only [Except.ok.injEq] at h2
  refine ⟨?_, ?_, ?_⟩
  · rw [← h2]
    simp
  · intro key hkey
    rw [← h1]
    exact hpres key hkey
  · intro c hc hcref
    rw [← h1]
    exact hgone c hc hcref

theorem tidy_removes_exactly_unreferenced_witness :
    ({ removedCount := 1 } : TidyResult).removedCount =
      ((childNames
          [(["r"], Node.dir), (["r", "backups"], Node.dir),
           (["r", "backups", "file:sha256:keep"], Node.dir),
           (["r", "backups", "file:sha256:keep", "object"], Node.file "x"),
           (["r", "backups", "gone"], Node.dir),
           (["r", "backups", "gone", "object"], Node.file "y"),
           (["t"], Node.dir), (["t", "m"], Node.file "x")]
          ["r", "backups"]).filter
        (fun c => decide (c ∉ ["file:sha256:keep"]))).length ∧
    (∀ key, (∀ c ∈ childNames
          [(["r"], Node.dir), (["r", "backups"], Node.dir),
           (["r", "backups", "file:sha256:keep"], Node.dir),
           (["r", "backups", "file:sha256:keep", "object"], Node.file "x"),
           (["r", "backups", "gone"], Node.dir),
           (["r", "backups", "gone", "object"], Node.file "y"),
           (["t"], Node.dir), (["t", "m"], Node.file "x")]
          ["r", "backups"], c ∉ ["file:sha256:keep"] →
        isKeyPrefix (["r", "backups"] ++ [c]) key = false) →
      fsFind (Tidy { root := "/r" }
        { fs := [(["r"], Node.dir), (["r", "backups"], Node.dir),
                 (["r", "backups", "file:sha256:keep"], Node.dir),
                 (["r", "backups", "file:sha256:keep", "object"], Node.file "x"),
                 (["r", "backups", "gone"], Node.dir),
                 (["r", "backups", "gone", "object"], Node.file "y"),
                 (["t"], Node.dir), (["t", "m"], Node.file "x")]
          lockFile := { manifest := { state := "loaded", kind := "local", loc := "/old", name := "o" }
                        files := [{ path := "/t/m"
                                    curr := { path := "/t/m", digest := "file:sha256:x" }
                                    prev := some { path := "", digest := "file:sha256:keep" } }]
                        dirs := [] }
          events := [] }).1.fs key =
      fsFind [(["r"], Node.dir), (["r", "backups"], Node.dir),
              (["r", "backups", "file:sha256:keep"], Node.dir),
              (["r", "backups", "file:sha256:keep", "object"], Node.file "x"),
              (["r", "backups", "gone"], Node.dir),
              (["r", "backups", "gone", "object"], Node.file "y"),
              (["t"], Node.dir), (["t", "m"], Node.file "x")] key) ∧
    (∀ c ∈ childNames
          [(["r"], Node.dir), (["r", "backups"], Node.dir),
           (["r", "backups", "file:sha256:keep"], Node.dir),
           (["r", "backups", "file:sha256:keep", "object"], Node.file "x"),
           (["r", "backups", "gone"], Node.dir),
           (["r", "backups", "gone", "object"], Node.file "y"),
           (["t"], Node.dir), (["t", "m"], Node.file "x")]
          ["r", "backups"], c ∉ ["file:sha256:keep"] →
      fsFind (Tidy { root := "/r" }
        { fs := [(["r"], Node.dir), (["r", "backups"], Node.dir),
                 (["r", "backups", "file:sha256:keep"], Node.dir),
                 (["r", "backups", "file:sha256:keep", "object"], Node.file "x"),
                 (["r", "backups", "gone"], Node.dir),
                 (["r", "backups", "gone", "object"], Node.file "y"),
                 (["t"], Node.dir), (["t", "m"], Node.file "x")]
          lockFile := { manifest := { state := "loaded", kind := "local", loc := "/old", name := "o" }
                        files := [{ path := "/t/m"
                                    curr := { path := "/t/m", digest := "file:sha256:x" }
                                    prev := some { path := "", digest := "file:sha256:keep" } }]
                        dirs := [] }
          events := [] }).1.fs (["r", "backups"] ++ [c]) = none) :=
  tidy_removes_exactly_unreferenced { root := "/r" } ["r", "backups"]
    { fs := [(["r"], Node.dir), (["r", "backups"], Node.dir),
             (["r", "backups", "file:sha256:keep"], Node.dir),
             (["r", "backups", "file:sha256:keep", "object"], Node.file "x"),
             (["r", "backups", "gone"], Node.dir),
             (["r", "backups", "gone", "object"], Node.file "y"),
             (["t"], Node.dir), (["t", "m"], Node.file "x")]
      lockFile := { manifest := { state := "loaded", kind := "local", loc := "/old", name := "o" }
                    files := [{ path := "/t/m"
                                curr := { path := "/t/m", digest := "file:sha256:x" }
                                prev := some { path := "", digest := "file:sha256:keep" } }]
                    dirs := [] }
      events := [] }
    (Tidy { root := "/r" }
      { fs := [(["r"], Node.dir), (["r", "backups"], Node.dir),
               (["r", "backups", "file:sha256:keep"], Node.dir),
               (["r", "backups", "file:sha256:keep", "object"], Node.file "x"),
               (["r", "backups", "gone"], Node.dir),
               (["r", "backups", "gone", "object"], Node.file "y"),
               (["t"], Node.dir), (["t", "m"], Node.file "x")]
        lockFile := { manifest := { state := "loaded", kind := "local", loc := "/old", name := "o" }
                      files := [{ path := "/t/m"
                                  curr := { path := "/t/m", digest := "file:sha256:x" }
                                  prev := some { path := "", digest := "file:sha256:keep" } }]
                      dirs := [] }
        events := [] }).1
    { removedCount := 1 } ["file:sha256:keep"]
    (by decide) (by decide) (by decide) (by decide) (by decide) (by decide) (by decide)

/-! ## C1 — failed apply after the checkpoint: no rollback in the source -/

/-- C1: counter-evidence to the rollback claim.  On the concrete pre-state
`demoPreC1` (old source loaded, one managed file `/t/managed` = "old") and
operation set `demoOpsC1` (first op applies, second references the missing
source file `/s/missing.txt`), `switchWithConfig` returns the raw stat
error — not a rollback-tagged one — and leaves the system in the partial
post-checkpoint state: the lock is the unloaded `DefaultLock` instead of
the pre-call lock, and `/t/managed` holds the new source's content instead
of the rolled-back "old". -/
theorem load_apply_failure_no_rollback :
    (switchWithConfig { root := "/r" } {} "new-source" "/s" demoOpsC1 false demoPreC1).2 =
      Except.error "stat source file /s/missing.txt: file does not exist" ∧
    (switchWithConfig { root := "/r" } {} "new-source" "/s" demoOpsC1 false
        demoPreC1).1.lockFile = DefaultLock ∧
    DefaultLock ≠ demoPreC1.lockFile ∧
    fsFind (switchWithConfig { root := "/r" } {} "new-source" "/s" demoOpsC1 false
        demoPreC1).1.fs (resolveComps "/t/managed") = some (Node.file "new") ∧
    fsFind demoPreC1.fs (resolveComps "/t/managed") = some (Node.file "old") := by
  refine ⟨?_, ?_, ?_, ?_, ?_⟩ <;> decide

end Tohru
